import Mathlib

/-!
Verification of the tile-map update engine and the occlusion-query visibility
cache of the rg3d/fyrox engine, shallowly embedded in Lean 4.

Sources embedded:
- fyrox-impl/src/scene/tilemap/tile_source.rs (handles, tile sources, repeat wrap)
- fyrox-impl/src/scene/tilemap/update.rs (diff engine: flood fill, nine-slice, swaps)
- fyrox-impl/src/renderer/visibility.rs (observer visibility cache)

Hash maps are modelled as cons-lists with first-match lookup (insertion shadows,
exactly like `HashMap::insert` followed by `get`), or as function maps where the
code only ever reads point-wise. Rust `i32`/`i16` coordinates are modelled as
unbounded `Int` with explicit range checks where the code performs checked
conversions; none of the embedded arithmetic can overflow `i32` in the regions
the claims quantify over. Floating point world positions never flow into any
claimed property except through `world_to_grid` and AABB containment tests,
which are abstracted as oracle parameters.
-/

/-- 2D integer vector, `Vector2<i32>` of nalgebra as used throughout the tile map code. -/
structure Vec2 where
  x : Int
  y : Int
deriving DecidableEq

instance : Add Vec2 := ⟨fun a b => ⟨a.x + b.x, a.y + b.y⟩⟩

instance : Sub Vec2 := ⟨fun a b => ⟨a.x - b.x, a.y - b.y⟩⟩

instance : Inhabited Vec2 := ⟨⟨0, 0⟩⟩

/-- 3D integer vector, `Vector3<i32>`: a grid cell key of the visibility cache. -/
structure Vec3 where
  x : Int
  y : Int
  z : Int
deriving DecidableEq

/-- Modelled from the spec: `TileRect` (axis-aligned integer bounding rectangle,
defined in the tilemap module outside the given sources). `position` is the
minimal corner and `size` the extent per axis. -/
structure TileRect where
  position : Vec2
  size : Vec2
deriving DecidableEq

/-- Modelled from the spec: `TileRect` membership, position ≤ p < position + size per axis. -/
def rect_contains (r : TileRect) (p : Vec2) : Bool :=
  decide (r.position.x ≤ p.x ∧ p.x < r.position.x + r.size.x ∧
    r.position.y ≤ p.y ∧ p.y < r.position.y + r.size.y)

/-- Modelled from the spec: `OptionTileRect::contains`; the empty rectangle contains nothing. -/
def opt_rect_contains (b : Option TileRect) (p : Vec2) : Bool :=
  match b with
  | none => false
  | some r => rect_contains r p

/-- Modelled from the spec: `TileRect::from_points`, the bounding rectangle of two
corner points, order-independent (min/max normalised). -/
def TileRect.from_points (a b : Vec2) : TileRect :=
  { position := ⟨min a.x b.x, min a.y b.y⟩
    size := ⟨max a.x b.x - min a.x b.x + 1, max a.y b.y - min a.y b.y + 1⟩ }

/-- Modelled from the spec: extending a `TileRect` to include a point. -/
def rect_push (r : TileRect) (p : Vec2) : TileRect :=
  let lox := min r.position.x p.x
  let loy := min r.position.y p.y
  let hix := max (r.position.x + r.size.x - 1) p.x
  let hiy := max (r.position.y + r.size.y - 1) p.y
  { position := ⟨lox, loy⟩, size := ⟨hix - lox + 1, hiy - loy + 1⟩ }

/-- Modelled from the spec: `OptionTileRect::push`, folding a point into the
"no rectangle yet" state yields the 1×1 rectangle at that point. -/
def opt_rect_push (b : Option TileRect) (p : Vec2) : Option TileRect :=
  match b with
  | none => some { position := p, size := ⟨1, 1⟩ }
  | some r => some (rect_push r p)

/-- Modelled from the spec: `OptionTileRect::deflate`; shrinking by `(dw, dh)` on
every side, degenerating to the empty rectangle when the size would drop to
zero or below (this is what skips edge/interior fills of `nine_slice` on
degenerate targets). -/
def opt_rect_deflate (b : Option TileRect) (dw dh : Int) : Option TileRect :=
  match b with
  | none => none
  | some r =>
    let sx := r.size.x - 2 * dw
    let sy := r.size.y - 2 * dh
    if sx ≤ 0 ∨ sy ≤ 0 then none
    else some { position := ⟨r.position.x + dw, r.position.y + dh⟩, size := ⟨sx, sy⟩ }

/-- Modelled from the spec: corner accessors of `TileRect` (y grows upward). -/
def TileRect.left_bottom_corner (r : TileRect) : Vec2 := r.position

/-- Modelled from the spec: corner accessors of `TileRect`. -/
def TileRect.right_bottom_corner (r : TileRect) : Vec2 :=
  ⟨r.position.x + r.size.x - 1, r.position.y⟩

/-- Modelled from the spec: corner accessors of `TileRect`. -/
def TileRect.left_top_corner (r : TileRect) : Vec2 :=
  ⟨r.position.x, r.position.y + r.size.y - 1⟩

/-- Modelled from the spec: corner accessors of `TileRect`. -/
def TileRect.right_top_corner (r : TileRect) : Vec2 :=
  ⟨r.position.x + r.size.x - 1, r.position.y + r.size.y - 1⟩

/-- Modelled from the spec: the list of positions inside a `TileRect`
(the `OptionTileRect` iterator). -/
def TileRect.positionsList (r : TileRect) : List Vec2 :=
  (List.range r.size.y.toNat).flatMap fun (j : Nat) =>
    (List.range r.size.x.toNat).map fun (i : Nat) =>
      (⟨r.position.x + (i : Int), r.position.y + (j : Int)⟩ : Vec2)

/-- Modelled from the spec: positions of an `OptionTileRect`. -/
def opt_rect_positions (b : Option TileRect) : List Vec2 :=
  match b with
  | none => []
  | some r => r.positionsList

/-- The finite set of cells of an optional rectangle; used as the termination
measure of the flood-fill loop. -/
def boundsFinset (b : Option TileRect) : Finset Vec2 :=
  (opt_rect_positions b).toFinset

/-- `TileGridMap<V>` / `FxHashMap<Vector2<i32>, V>` modelled as a cons-list with
first-match lookup: `gmInsert` shadows any earlier binding, exactly like
`HashMap::insert` w.r.t. `get`. -/
def gmLookup {V : Type} : List (Vec2 × V) → Vec2 → Option V
  | [], _ => none
  | (q, v) :: rest, p => if q = p then some v else gmLookup rest p

/-- `HashMap::contains_key`. -/
def gmContains {V : Type} (m : List (Vec2 × V)) (p : Vec2) : Bool :=
  (gmLookup m p).isSome

/-- `HashMap::insert` (shadowing cons). -/
def gmInsert {V : Type} (m : List (Vec2 × V)) (p : Vec2) (v : V) : List (Vec2 × V) :=
  (p, v) :: m

/-- `HashMap::keys`. -/
def gmKeys {V : Type} (m : List (Vec2 × V)) : List Vec2 :=
  m.map Prod.fst

/-- tile_source.rs:35, `PalettePosition = Vector2<i16>`: modelled as a `Vec2`
whose components are kept within the signed 16-bit range by `try_position`. -/
def palette_in_range (v : Vec2) : Bool :=
  decide (-32768 ≤ v.x ∧ v.x ≤ 32767 ∧ -32768 ≤ v.y ∧ v.y ≤ 32767)

/-- tile_source.rs:38, `try_position`: checked narrowing `i32 → i16`, `None`
exactly when a component is out of the signed 16-bit range. -/
def try_position (source : Vec2) : Option Vec2 :=
  if palette_in_range source then some source else none

/-- tile_source.rs:75, `TileDefinitionHandle`: a pair of 16-bit-range coordinate
vectors identifying a tile definition. -/
structure TileDefinitionHandle where
  page : Vec2
  tile : Vec2
deriving DecidableEq

/-- tile_source.rs:129, `TileDefinitionHandle::try_new`. -/
def TileDefinitionHandle.try_new (page tile : Vec2) : Option TileDefinitionHandle := do
  let p ← try_position page
  let t ← try_position tile
  pure { page := p, tile := t }

/-- tile_source.rs:144, `TileDefinitionHandle::page` (widening `i16 → i32` is the
identity in this model). -/
def TileDefinitionHandle.pageVec (h : TileDefinitionHandle) : Vec2 := h.page

/-- tile_source.rs:148, `TileDefinitionHandle::tile`. -/
def TileDefinitionHandle.tileVec (h : TileDefinitionHandle) : Vec2 := h.tile

/-- Modelled from the spec: `OrthoTransformation` (rotation/flip applied to
emitted tiles, defined outside the given sources). The drawing code only
carries it around, so it is opaque here. -/
structure OrthoTransformation where
  val : Nat
deriving DecidableEq

/-- tile_source.rs:169, `TileRegion`: an area to fill plus the position that the
(0,0) tile of the source is mapped to. -/
structure TileRegion where
  origin : Vec2
  bounds : Option TileRect
deriving DecidableEq

/-- tile_source.rs:200, `TileRegion::from_points`. -/
def TileRegion.from_points (origin end_ : Vec2) : TileRegion :=
  { origin := origin, bounds := some (TileRect.from_points origin end_) }

/-- tile_source.rs:180, `TileRegion::from_bounds_and_direction`. -/
def TileRegion.from_bounds_and_direction (bounds : Option TileRect) (direction : Vec2) :
    TileRegion :=
  match bounds with
  | none => { origin := ⟨0, 0⟩, bounds := none }
  | some rect =>
    let x0 := if direction.x ≤ 0 then rect.left_bottom_corner.x else rect.right_top_corner.x
    let y0 := if direction.y ≤ 0 then rect.left_bottom_corner.y else rect.right_top_corner.y
    { origin := ⟨x0, y0⟩, bounds := some rect }

/-- tile_source.rs:206, `TileRegion::with_bounds`. -/
def TileRegion.with_bounds (r : TileRegion) (bounds : Option TileRect) : TileRegion :=
  { r with bounds := bounds }

/-- tile_source.rs:211, `TileRegion::deflate`. -/
def TileRegion.deflate (r : TileRegion) (dw dh : Int) : TileRegion :=
  { r with bounds := opt_rect_deflate r.bounds dw dh }

/-- tile_source.rs:219, `TileRegion::iter`: `(target, source)` pairs, one per
position of `bounds`. -/
def TileRegion.iterList (r : TileRegion) : List (Vec2 × Vec2) :=
  (opt_rect_positions r.bounds).map fun p => (p, p - r.origin)

/-- tile_source.rs:299, `Tiles`: a grid of tile definition handles. -/
def Tiles := List (Vec2 × TileDefinitionHandle)

/-- tile_source.rs:310, `<Tiles as TileSource>::get_at`. -/
def tiles_get_at (t : Tiles) (p : Vec2) : Option TileDefinitionHandle :=
  gmLookup t p

/-- tile_source.rs:428, `Tiles::bounding_rect`: fold every key into an
`OptionTileRect`. -/
def tiles_bounding_rect (t : Tiles) : Option TileRect :=
  (gmKeys t).foldl opt_rect_push none

/-- tile_source.rs:304, `Stamp`: the user's current brush selection — a
transformation plus a grid of handles (`OrthoTransformMap` is a grid map). -/
structure Stamp where
  transform : OrthoTransformation
  tiles : List (Vec2 × TileDefinitionHandle)

/-- tile_source.rs:339, `<Stamp as TileSource>::get_at` (also `Stamp::get` via deref). -/
def Stamp.get_at (s : Stamp) (p : Vec2) : Option TileDefinitionHandle :=
  gmLookup s.tiles p

/-- brush.rs:111 / tile_source.rs pattern: bounding rectangle of a stamp's keys. -/
def Stamp.bounding_rect (s : Stamp) : Option TileRect :=
  (gmKeys s.tiles).foldl opt_rect_push none

/-- tile_source.rs:286, `RepeatTileSource::get_at`: wrap the queried position
into the region's rectangle with per-axis `rem_euclid` (Lean's `%` on `Int` is
the same Euclidean remainder) and forward to the wrapped source. -/
def repeat_get_at (sourceGetAt : Vec2 → Option TileDefinitionHandle) (region : TileRegion)
    (position : Vec2) : Option TileDefinitionHandle :=
  match region.bounds with
  | none => none
  | some rect =>
    let pos := position + region.origin - rect.position
    let x := pos.x % rect.size.x
    let y := pos.y % rect.size.y
    sourceGetAt (⟨x, y⟩ + rect.position)

/-- update.rs:469, `RotTileHandle`. -/
def RotTileHandle := OrthoTransformation × TileDefinitionHandle

/-- update.rs:475, `TransTilesUpdate`: position → optional (transform, handle);
`none` means "erase this cell". -/
def TransTilesUpdate := List (Vec2 × Option RotTileHandle)

/-- The four 4-connected neighbours pushed by `flood_fill` (update.rs:556-561). -/
def neighborsOf (p : Vec2) : List Vec2 :=
  [⟨p.x - 1, p.y⟩, ⟨p.x + 1, p.y⟩, ⟨p.x, p.y - 1⟩, ⟨p.x, p.y + 1⟩]

/-- update.rs:547-567, the work-stack loop of `TransTilesUpdate::flood_fill`,
with an explicit fuel argument (the Rust loop runs until the stack empties;
`flood_fill_terminates` shows the chosen fuel always suffices, so `none` is
never the value of the actual call). The list head is the top of the stack. -/
def flood_fill_loop (tiles : Tiles) (allowed : Option TileDefinitionHandle)
    (bounds : Option TileRect) (trans : OrthoTransformation)
    (getAt : Vec2 → Option TileDefinitionHandle) (seed : Vec2) :
    Nat → List Vec2 → TransTilesUpdate → Option TransTilesUpdate
  | 0, stack, u => if stack.isEmpty then some u else none
  | _ + 1, [], u => some u
  | fuel + 1, p :: rest, u =>
    if tiles_get_at tiles p = allowed ∧ ¬gmContains u p then
      let value := (getAt (p - seed)).map fun h => (trans, h)
      let u' := gmInsert u p value
      let pushed := (neighborsOf p).filter fun q => opt_rect_contains bounds q
      flood_fill_loop tiles allowed bounds trans getAt seed fuel (pushed ++ rest) u'
    else
      flood_fill_loop tiles allowed bounds trans getAt seed fuel rest u

/-- Fuel that always suffices for the flood-fill loop: five steps per cell of
the bounding rectangle plus one for the initial stack entry. -/
def flood_fill_fuel (bounds : Option TileRect) : Nat :=
  5 * (opt_rect_positions bounds).length + 1

/-- update.rs:536, `TransTilesUpdate::flood_fill`: extend the bounding rectangle
of the tiles to include the seed, record the seed cell's identity, then run the
work-stack loop from the seed. -/
def flood_fill (u : TransTilesUpdate) (tiles : Tiles) (start_point : Vec2)
    (trans : OrthoTransformation) (getAt : Vec2 → Option TileDefinitionHandle) :
    Option TransTilesUpdate :=
  let bounds := opt_rect_push (tiles_bounding_rect tiles) start_point
  let allowed := tiles_get_at tiles start_point
  flood_fill_loop tiles allowed bounds trans getAt start_point
    (flood_fill_fuel bounds) [start_point] u

/-- The set of cells that `flood_fill` writes, as claimed: 4-connected
reachability from the seed through in-bounds cells whose tile identity equals
the seed cell's identity. -/
inductive Reach (tiles : Tiles) (allowed : Option TileDefinitionHandle)
    (bounds : Option TileRect) (seed : Vec2) : Vec2 → Prop
  | seed : Reach tiles allowed bounds seed seed
  | step {q p : Vec2} : Reach tiles allowed bounds seed q → p ∈ neighborsOf q →
      opt_rect_contains bounds p = true → tiles_get_at tiles p = allowed →
      Reach tiles allowed bounds seed p

/-- update.rs:600, `TransTilesUpdate::rect_fill_inner`, generic in the tile
source (`transformation()` and `get_at` passed explicitly): insert
`(trans, handle)` at every target of the region for which the source yields a
handle. -/
def rect_fill_inner (u : TransTilesUpdate) (region : TileRegion)
    (trans : OrthoTransformation) (getAt : Vec2 → Option TileDefinitionHandle) :
    TransTilesUpdate :=
  region.iterList.foldl
    (fun acc ts =>
      match getAt ts.2 with
      | some h => gmInsert acc ts.1 (some (trans, h))
      | none => acc)
    u

/-- One step of the corner loop of update.rs:680-691: if the stamp has a tile
at the stamp-corner position, insert it (with the stamp's transformation) at
the target-corner position. -/
def corner_place (stamp : Stamp) (u : TransTilesUpdate) (cp acp : Vec2) :
    TransTilesUpdate :=
  match stamp.get_at cp with
  | some t => gmInsert u acp (some (stamp.transform, t))
  | none => u

/-- The corner loop of update.rs:680-691: place the four stamp corner tiles at
the four target corners (top-left, top-right, bottom-right, bottom-left). -/
def nine_slice_corners (u₀ : TransTilesUpdate) (stamp : Stamp)
    (stamp_rect rect : TileRect) : TransTilesUpdate :=
  corner_place stamp
    (corner_place stamp
      (corner_place stamp
        (corner_place stamp u₀ stamp_rect.left_top_corner rect.left_top_corner)
        stamp_rect.right_top_corner rect.right_top_corner)
      stamp_rect.right_bottom_corner rect.right_bottom_corner)
    stamp_rect.left_bottom_corner rect.left_bottom_corner

/-- The body of update.rs:658, `TransTilesUpdate::nine_slice_inner`, once the
stamp's bounding rectangle is known, generic in the `fill` callback exactly as
in the source: place the four stamp corners at the four target corners, fill
top/bottom edges only when both the target and the stamp are wider than 2,
left/right edges only when both are taller than 2, then fill the deflated
interior. -/
def nine_slice_core (u₀ : TransTilesUpdate) (start end_ : Vec2) (stamp : Stamp)
    (stamp_rect : TileRect)
    (fill : TransTilesUpdate → TileRegion → TileRegion → TransTilesUpdate) :
    TransTilesUpdate :=
    let rect := TileRect.from_points start end_
    let region : TileRegion := { origin := start, bounds := some rect }
    let inner_region := region.deflate 1 1
    let stamp_region := TileRegion.from_bounds_and_direction (some stamp_rect) (start - end_)
    let inner_stamp_region := stamp_region.deflate 1 1
    let u₁ := nine_slice_corners u₀ stamp stamp_rect rect
    let top := region.with_bounds (some (TileRect.from_points
      (rect.left_top_corner + ⟨1, 0⟩) (rect.right_top_corner + ⟨-1, 0⟩)))
    let bottom := region.with_bounds (some (TileRect.from_points
      (rect.left_bottom_corner + ⟨1, 0⟩) (rect.right_bottom_corner + ⟨-1, 0⟩)))
    let left := region.with_bounds (some (TileRect.from_points
      (rect.left_bottom_corner + ⟨0, 1⟩) (rect.left_top_corner + ⟨0, -1⟩)))
    let right := region.with_bounds (some (TileRect.from_points
      (rect.right_bottom_corner + ⟨0, 1⟩) (rect.right_top_corner + ⟨0, -1⟩)))
    let stamp_top := stamp_region.with_bounds (some (TileRect.from_points
      (stamp_rect.left_top_corner + ⟨1, 0⟩) (stamp_rect.right_top_corner + ⟨-1, 0⟩)))
    let stamp_bottom := stamp_region.with_bounds (some (TileRect.from_points
      (stamp_rect.left_bottom_corner + ⟨1, 0⟩) (stamp_rect.right_bottom_corner + ⟨-1, 0⟩)))
    let stamp_left := stamp_region.with_bounds (some (TileRect.from_points
      (stamp_rect.left_bottom_corner + ⟨0, 1⟩) (stamp_rect.left_top_corner + ⟨0, -1⟩)))
    let stamp_right := stamp_region.with_bounds (some (TileRect.from_points
      (stamp_rect.right_bottom_corner + ⟨0, 1⟩) (stamp_rect.right_top_corner + ⟨0, -1⟩)))
    let u₂ :=
      if rect.size.x > 2 ∧ stamp_rect.size.x > 2 then
        fill (fill u₁ top stamp_top) bottom stamp_bottom
      else u₁
    let u₃ :=
      if rect.size.y > 2 ∧ stamp_rect.size.y > 2 then
        fill (fill u₂ left stamp_left) right stamp_right
      else u₂
    fill u₃ inner_region inner_stamp_region

/-- update.rs:658, `TransTilesUpdate::nine_slice_inner`: an empty stamp is a
no-op, otherwise run the 3×3 placement with the stamp's bounding rectangle. -/
def nine_slice_inner (u₀ : TransTilesUpdate) (start end_ : Vec2) (stamp : Stamp)
    (fill : TransTilesUpdate → TileRegion → TileRegion → TransTilesUpdate) :
    TransTilesUpdate :=
  match Stamp.bounding_rect stamp with
  | none => u₀
  | some stamp_rect => nine_slice_core u₀ start end_ stamp stamp_rect fill

/-- update.rs:621, `TransTilesUpdate::nine_slice`: edge/interior fills use the
stamp wrapped into a `RepeatTileSource` over the given source region. -/
def nine_slice (u : TransTilesUpdate) (start end_ : Vec2) (stamp : Stamp) :
    TransTilesUpdate :=
  nine_slice_inner u start end_ stamp fun u' target_region source_region =>
    rect_fill_inner u' target_region stamp.transform
      (repeat_get_at stamp.get_at source_region)

/-- tile_source.rs:267, `PartialRandomTileSource::get_at`: a random position of
the region's bounds is chosen and looked up in the stamp. The thread-local RNG
is modelled as a choice oracle receiving the region and the queried position;
`none` models an empty region (`choose` on an empty iterator). -/
def part_random_get_at (stamp : Stamp) (bounds : Option TileRect)
    (oracle : Vec2 → Option Vec2) (position : Vec2) : Option TileDefinitionHandle :=
  match oracle position with
  | none => none
  | some q => if opt_rect_contains bounds q then stamp.get_at q else none

/-- update.rs:640, `TransTilesUpdate::nine_slice_random`: like `nine_slice` but
edge/interior fills draw random stamp tiles from the source region, here via a
choice oracle per source region. -/
def nine_slice_random (u : TransTilesUpdate) (start end_ : Vec2) (stamp : Stamp)
    (oracle : TileRegion → Vec2 → Option Vec2) : TransTilesUpdate :=
  nine_slice_inner u start end_ stamp fun u' target_region source_region =>
    rect_fill_inner u' target_region stamp.transform
      (part_random_get_at stamp source_region.bounds (oracle source_region))

/-- Cells a degenerate-width nine-slice is allowed to write: the four corners of
the target rectangle plus the left/right edge strips (x on the left or right
column, y strictly between the corner rows). -/
def nineSliceAllowedX (rect : TileRect) (p : Vec2) : Bool :=
  decide (p = rect.left_top_corner ∨ p = rect.right_top_corner ∨
    p = rect.right_bottom_corner ∨ p = rect.left_bottom_corner ∨
    ((p.x = rect.position.x ∨ p.x = rect.position.x + rect.size.x - 1) ∧
      rect.position.y + 1 ≤ p.y ∧ p.y ≤ rect.position.y + rect.size.y - 2))

/-- Cells a degenerate-height nine-slice is allowed to write: the four corners
plus the top/bottom edge strips. -/
def nineSliceAllowedY (rect : TileRect) (p : Vec2) : Bool :=
  decide (p = rect.left_top_corner ∨ p = rect.right_top_corner ∨
    p = rect.right_bottom_corner ∨ p = rect.left_bottom_corner ∨
    ((p.y = rect.position.y ∨ p.y = rect.position.y + rect.size.y - 1) ∧
      rect.position.x + 1 ≤ p.x ∧ p.x ≤ rect.position.x + rect.size.x - 2))

/-- visibility.rs:50, `Visibility`: the tri-state cached visibility value. -/
inductive Visibility where
  | undefined
  | invisible
  | visible
deriving DecidableEq

/-- visibility.rs:57, `Visibility::needs_occlusion_query`. -/
def Visibility.needs_occlusion_query : Visibility → Bool
  | .undefined => false
  | .invisible => true
  | .visible => false

/-- visibility.rs:77, `Visibility::needs_rendering`. -/
def Visibility.needs_rendering : Visibility → Bool
  | .visible => true
  | .undefined => true
  | .invisible => false

/-- The GPU occlusion query object (`framework::query::Query`), modelled by its
observable protocol state: whether `end()` has been called on it, and the
eventual `AnySamplesPassed` result that `try_get_result` reports (`none` while
the result is not ready). -/
structure QueryModel where
  ended : Bool
  result : Option Bool
deriving DecidableEq

/-- visibility.rs:43, `PendingQuery`: an in-flight query tied to the observer
position it was issued from and the queried node. `W` is the abstract type of
world-space observer positions (`Vector3<f32>` in the source; floating point is
abstracted, with `world_to_grid` passed as an oracle wherever the source calls
it). Node handles are modelled as naturals. -/
structure PendingQuery (W : Type) where
  query : QueryModel
  observer_position : W
  node : Nat
deriving DecidableEq

/-- The nested `cells` hash maps of the cache
(`FxHashMap<Vector3<i32>, FxHashMap<Handle<Node>, Visibility>>`), modelled as a
function map read point-wise; an absent cell and an absent node entry are both
`none` (creating an empty cell with `or_default` is invisible point-wise). -/
def Cells := Vec3 → Nat → Option Visibility

/-- visibility.rs:92, `ObserverVisibilityCache` (granularity and the float
distance threshold live only inside the abstracted oracles). -/
structure ObserverVisibilityCache (W : Type) where
  cells : Cells
  pending_queries : List (PendingQuery W)

/-- `HashMap::entry(..).or_insert(v)`: point-wise insert that keeps an existing
value (visibility.rs:198,210,236). -/
def cellsOrInsert (cells : Cells) (g : Vec3) (n : Nat) (v : Visibility) : Cells :=
  fun g' n' =>
    if g' = g ∧ n' = n then
      some (match cells g n with
        | some old => old
        | none => v)
    else cells g' n'

/-- visibility.rs:140, `ObserverVisibilityCache::visibility_info`. -/
def visibility_info {W : Type} (worldToGrid : W → Vec3) (st : ObserverVisibilityCache W)
    (observer_position : W) (node : Nat) : Option Visibility :=
  st.cells (worldToGrid observer_position) node

/-- visibility.rs:153, `ObserverVisibilityCache::needs_occlusion_query`: absent
info means a query is needed. -/
def cache_needs_occlusion_query {W : Type} (worldToGrid : W → Vec3)
    (st : ObserverVisibilityCache W) (observer_position : W) (node : Nat) : Bool :=
  match visibility_info worldToGrid st observer_position node with
  | none => true
  | some v => v.needs_occlusion_query

/-- visibility.rs:169, `ObserverVisibilityCache::is_visible`: absent info is
reported as not visible. -/
def cache_is_visible {W : Type} (worldToGrid : W → Vec3)
    (st : ObserverVisibilityCache W) (observer_position : W) (node : Nat) : Bool :=
  match visibility_info worldToGrid st observer_position node with
  | none => false
  | some v => v.needs_rendering

/-- visibility.rs:180, `ObserverVisibilityCache::begin_conditional_query`.
`graph` abstracts `graph.try_get` (`none` = node gone), `containsObserver`
abstracts `world_bounding_box().is_contains_point(observer_position)` (floats),
and `newQuery` abstracts the fallible `Query::new` (`none` = `FrameworkError`,
which the embedding reports as the outer `none`). Returns the bool result of
`Ok` and the updated cache. -/
def begin_conditional_query {W B : Type} (worldToGrid : W → Vec3)
    (graph : Nat → Option B) (containsObserver : B → W → Bool)
    (newQuery : Option QueryModel) (observer_position : W) (node : Nat)
    (st : ObserverVisibilityCache W) : Option (Bool × ObserverVisibilityCache W) :=
  match graph node with
  | none => some (false, st)
  | some node_ref =>
    let grid_position := worldToGrid observer_position
    if containsObserver node_ref observer_position then
      some (false, { st with cells := cellsOrInsert st.cells grid_position node .visible })
    else
      match newQuery with
      | none => none
      | some q =>
        some (true,
          { cells := cellsOrInsert st.cells grid_position node .undefined
            pending_queries :=
              st.pending_queries ++ [{ query := q, observer_position := observer_position, node := node }] })

/-- visibility.rs:242, `ObserverVisibilityCache::end_query`: mark the most
recently begun pending query as ended. -/
def endLastQuery {W : Type} : List (PendingQuery W) → List (PendingQuery W)
  | [] => []
  | [pq] => [{ pq with query := { pq.query with ended := true } }]
  | pq :: rest => pq :: endLastQuery rest

/-- visibility.rs:242, `ObserverVisibilityCache::end_query`; `none` models the
`expect("begin_query/end_query calls mismatch!")` panic on an empty pending
list. -/
def end_query {W : Type} (st : ObserverVisibilityCache W) :
    Option (ObserverVisibilityCache W) :=
  match st.pending_queries with
  | [] => none
  | _ => some { st with pending_queries := endLastQuery st.pending_queries }

/-- visibility.rs:267-286, the `match visibility` block of
`ObserverVisibilityCache::update`: how one completed query result changes a
cached visibility value. -/
def apply_query_result (v : Visibility) (query_result : Bool) : Visibility :=
  match v with
  | .undefined => if query_result then .visible else .invisible
  | .invisible => if query_result then .visible else .invisible
  | .visible => .visible

/-- visibility.rs:253-292, the `retain_mut` pass of
`ObserverVisibilityCache::update`: completed queries are resolved against the
cell entry of their originating observer position (a missing entry is the
`expect` panic, modelled as `none`) and removed; incomplete queries are
retained in order. Returns the updated cells and the retained pending list. -/
def process_pending_queries {W : Type} (worldToGrid : W → Vec3) (cells : Cells) :
    List (PendingQuery W) → Option (Cells × List (PendingQuery W))
  | [] => some (cells, [])
  | pq :: rest =>
    match pq.query.result with
    | some query_result =>
      let grid_position := worldToGrid pq.observer_position
      match cells grid_position pq.node with
      | none => none
      | some v =>
        let cells' : Cells := fun g n =>
          if g = grid_position ∧ n = pq.node then some (apply_query_result v query_result)
          else cells g n
        process_pending_queries worldToGrid cells' rest
    | none =>
      (process_pending_queries worldToGrid cells rest).map fun r => (r.1, pq :: r.2)

/-- visibility.rs:252, `ObserverVisibilityCache::update`: process the pending
queries, then evict distant cells. The float distance test
`grid_to_world(cell).metric_distance(observer) < threshold` is abstracted as
the `keep` oracle over grid cells. -/
def cache_update {W : Type} (worldToGrid : W → Vec3) (keep : Vec3 → Bool)
    (st : ObserverVisibilityCache W) : Option (ObserverVisibilityCache W) :=
  (process_pending_queries worldToGrid st.cells st.pending_queries).map fun r =>
    { cells := fun g n => if keep g then r.1 g n else none
      pending_queries := r.2 }

/-- The completed (`try_get_result` = some) query results among a pending list
that target the given grid cell and node, in issuance order. -/
def completedResultsFor {W : Type} (worldToGrid : W → Vec3)
    (pending : List (PendingQuery W)) (cell : Vec3) (node : Nat) : List Bool :=
  pending.filterMap fun pq =>
    if worldToGrid pq.observer_position = cell ∧ pq.node = node then pq.query.result
    else none

/-- Modelled from the spec: `Color` (an opaque value type for the swap code,
which only moves it). -/
structure Color where
  val : Nat
deriving DecidableEq

/-- Modelled from the spec: `TileCollider` (opaque to the swap code). -/
structure TileCollider where
  val : Nat
deriving DecidableEq

/-- Modelled from the spec: `TileMaterialBounds` (opaque to the swap code). -/
structure TileMaterialBounds where
  val : Nat
deriving DecidableEq

/-- Modelled from the spec: `TileSetPropertyValue`; the swap code in
update.rs:221-237 distinguishes only the `NineSlice` variant (nine `i8` slots,
modelled as unbounded integers since they are only moved, never computed with)
from every other variant, which `other` stands for. -/
inductive TileSetPropertyValue where
  | nineSlice (values : Fin 9 → Int)
  | other (tag : Nat)

/-- Modelled from the spec: `TileData` — the live per-tile record the update
engine swaps against: a color plus property and collider maps keyed by `Uuid`
(modelled as `Nat`), read point-wise, hence function maps. -/
structure TileData where
  color : Color
  properties : Nat → Option TileSetPropertyValue
  collider : Nat → Option TileCollider

/-- Modelled from the spec: `TileDefinition` — full tile data plus material
bounds, as held by freeform pages. -/
structure TileDefinition where
  material_bounds : TileMaterialBounds
  data : TileData

/-- update.rs:128, `TileDataUpdate`: a committable change to one tile. -/
inductive TileDataUpdate where
  | erase
  | materialTile (d : TileData)
  | freeformTile (d : TileDefinition)
  | transformSet (h : Option TileDefinitionHandle)
  | color (c : Color)
  | property (id : Nat) (value : Option TileSetPropertyValue)
  | propertySlice (id : Nat) (value : Fin 9 → Option Int)
  | collider (id : Nat) (value : Option TileCollider)
  | material (b : TileMaterialBounds)

/-- Modelled from the spec: `swap_hash_map_entry` (defined outside the given
sources): exchange the map's entry at `k` with an optional value — occupied +
`Some` replaces and returns the old value, occupied + `None` removes and
returns it, vacant + `Some` inserts and leaves `None`, vacant + `None` is a
no-op. Point-wise this is exactly "write `v` at `k`, hand back what was
there". Returns (new map, new value slot). -/
def swap_hash_map_entry {V : Type} (m : Nat → Option V) (k : Nat) (v : Option V) :
    (Nat → Option V) × Option V :=
  (fun u => if u = k then v else m u, m k)

/-- The `TileDataUpdate` variants whose `swap_with_data` arm is `panic!()`
(update.rs:209,238,239): `Erase`, `TransformSet` and `Material`. -/
def TileDataUpdate.swapPanics : TileDataUpdate → Bool
  | .erase => true
  | .transformSet _ => true
  | .material _ => true
  | _ => false

/-- update.rs:207, `TileDataUpdate::swap_with_data`: swap the update's payload
with the corresponding field(s) of the given `TileData` in place. The Rust
method mutates both arguments; here it returns (new update, new data), with
`none` modelling the fatal panic of the payload-free variants. -/
def TileDataUpdate.swap_with_data (u : TileDataUpdate) (data : TileData) :
    Option (TileDataUpdate × TileData) :=
  match u with
  | .erase => none
  | .materialTile tile_data => some (.materialTile data, tile_data)
  | .freeformTile tile_definition =>
    some (.freeformTile { tile_definition with data := data }, tile_definition.data)
  | .color c => some (.color data.color, { data with color := c })
  | .collider uuid value =>
    let r := swap_hash_map_entry data.collider uuid value
    some (.collider uuid r.2, { data with collider := r.1 })
  | .property uuid value =>
    let r := swap_hash_map_entry data.properties uuid value
    some (.property uuid r.2, { data with properties := r.1 })
  | .propertySlice uuid value =>
    match data.properties uuid with
    | some (.nineSlice v0) =>
      some (.propertySlice uuid fun i => (value i).map fun _ => v0 i,
        { data with properties := fun k =>
            if k = uuid then some (.nineSlice fun i => (value i).getD (v0 i))
            else data.properties k })
    | some (.other _) => some (.propertySlice uuid value, data)
    | none =>
      some (.property uuid none,
        { data with properties := fun k =>
            if k = uuid then some (.nineSlice fun i => (value i).getD 0)
            else data.properties k })
  | .transformSet _ => none
  | .material _ => none

/-- The wrapped position that `RepeatTileSource::get_at` forwards to the
underlying source (relative to the rectangle's corner): per-axis Euclidean
modulo of `position + origin - rect.position` by the rectangle size. -/
def repeat_wrapped (region : TileRegion) (rect : TileRect) (position : Vec2) : Vec2 :=
  ⟨(position.x + region.origin.x - rect.position.x) % rect.size.x,
    (position.y + region.origin.y - rect.position.y) % rect.size.y⟩

/-- The set of keys of a grid map. -/
def keyFinset {V : Type} (m : List (Vec2 × V)) : Finset Vec2 :=
  (gmKeys m).toFinset

/-- Invariant of the flood-fill work-stack loop, tying the stack and the diff
map to the reachable set: stack entries are in bounds and are the seed or
neighbours of written cells; written cells are reachable, carry the brush value
for their offset from the seed, are never written twice, and have all their
eligible in-bounds neighbours either written or still on the stack; the seed is
written or still on the stack. -/
def FloodInv (tiles : Tiles) (allowed : Option TileDefinitionHandle)
    (bounds : Option TileRect) (trans : OrthoTransformation)
    (getAt : Vec2 → Option TileDefinitionHandle) (seed : Vec2)
    (stack : List Vec2) (u : TransTilesUpdate) : Prop :=
  (∀ q ∈ stack, opt_rect_contains bounds q = true)
  ∧ (∀ q ∈ stack, q = seed ∨ ∃ t, gmContains u t = true ∧ q ∈ neighborsOf t)
  ∧ (∀ q, gmContains u q = true → Reach tiles allowed bounds seed q)
  ∧ (∀ q h, gmLookup u q = some h → h = (getAt (q - seed)).map fun hh => (trans, hh))
  ∧ (gmKeys u).Nodup
  ∧ (∀ q, gmContains u q = true → ∀ p ∈ neighborsOf q,
      opt_rect_contains bounds p = true → tiles_get_at tiles p = allowed →
      gmContains u p = true ∨ p ∈ stack)
  ∧ (gmContains u seed = true ∨ seed ∈ stack)

/-- Applying `swap_with_data` twice in succession to the same data record:
the data that results (`none` when either application panics). -/
def swap_twice (u : TileDataUpdate) (d : TileData) : Option TileData :=
  match u.swap_with_data d with
  | none => none
  | some (u', d') =>
    match u'.swap_with_data d' with
    | none => none
    | some (_, d'') => some d''

/-- Sample world-position type collapse for witnesses: a single observer
position mapping to grid cell (0,0,0). -/
def unitToGrid : Unit → Vec3 := fun _ => ⟨0, 0, 0⟩

/-- Sample cells: the cached value for cell (0,0,0), node 0 is `Invisible`. -/
def invisibleCells : Cells :=
  fun g n => if g = ⟨0, 0, 0⟩ ∧ n = 0 then some Visibility.invisible else none

/-- Sample cells: empty. -/
def emptyCells : Cells := fun _ _ => none

/-- Sample scene graph for witnesses: every node exists (opaque payload). -/
def sampleGraph : Nat → Option Unit := fun _ => some ()

/-- Containment oracle for witnesses: the observer is inside every bounding box. -/
def containsAlways : Unit → Unit → Bool := fun _ _ => true

/-- Eviction oracle for witnesses: keep every cell. -/
def keepAll : Vec3 → Bool := fun _ => true

/-- A sample pending query whose GPU result is ready and positive. -/
def pq0 : PendingQuery Unit :=
  { query := { ended := false, result := some true }, observer_position := (), node := 0 }

/-- Sample cache with one `Invisible` entry and one completed positive query. -/
def sampleCacheInvisible : ObserverVisibilityCache Unit :=
  { cells := invisibleCells, pending_queries := [pq0] }

/-- Sample cache with one `Invisible` entry and no pending queries. -/
def c2Cache : ObserverVisibilityCache Unit :=
  { cells := invisibleCells, pending_queries := [] }

/-- Sample empty cache. -/
def emptyCacheU : ObserverVisibilityCache Unit :=
  { cells := emptyCells, pending_queries := [] }

/-- Sample cache with an empty cell map and one pending query. -/
def c8Cache : ObserverVisibilityCache Unit :=
  { cells := emptyCells, pending_queries := [pq0] }

/-- Sample tile data with no properties and no colliders. -/
def emptyTileData : TileData :=
  { color := ⟨0⟩, properties := fun _ => none, collider := fun _ => none }

/-- A 3×3 sample stamp covering positions (0,0)–(2,2). -/
def stamp33 : Stamp :=
  { transform := ⟨0⟩
    tiles :=
      [(⟨0, 0⟩, ⟨⟨0, 0⟩, ⟨0, 0⟩⟩), (⟨1, 0⟩, ⟨⟨0, 0⟩, ⟨1, 0⟩⟩), (⟨2, 0⟩, ⟨⟨0, 0⟩, ⟨2, 0⟩⟩),
        (⟨0, 1⟩, ⟨⟨0, 0⟩, ⟨0, 1⟩⟩), (⟨1, 1⟩, ⟨⟨0, 0⟩, ⟨1, 1⟩⟩), (⟨2, 1⟩, ⟨⟨0, 0⟩, ⟨2, 1⟩⟩),
        (⟨0, 2⟩, ⟨⟨0, 0⟩, ⟨0, 2⟩⟩), (⟨1, 2⟩, ⟨⟨0, 0⟩, ⟨1, 2⟩⟩), (⟨2, 2⟩, ⟨⟨0, 0⟩, ⟨2, 2⟩⟩)] }

/-- A choice oracle for `nine_slice_random` witnesses that never picks a tile. -/
def noOracle : TileRegion → Vec2 → Option Vec2 := fun _ _ => none

/-- A sample tile source for witnesses that never yields a tile. -/
def noGetAt : Vec2 → Option TileDefinitionHandle := fun _ => none

/-- A sample region for the repeat-wrap witness: a 3×2 rectangle at the origin. -/
def c6Region : TileRegion :=
  { origin := ⟨0, 0⟩, bounds := some { position := ⟨0, 0⟩, size := ⟨3, 2⟩ } }

@[simp]
theorem Vec2.add_x (a b : Vec2) : (a + b).x = a.x + b.x := rfl

@[simp]
theorem Vec2.add_y (a b : Vec2) : (a + b).y = a.y + b.y := rfl

@[simp]
theorem Vec2.sub_x (a b : Vec2) : (a - b).x = a.x - b.x := rfl

@[simp]
theorem Vec2.sub_y (a b : Vec2) : (a - b).y = a.y - b.y := rfl

/-- C7: for pages and tiles within the signed 16-bit range, `try_new` returns a
handle whose `page()`/`tile()` accessors round-trip exactly; any component out
of range yields `None`. -/
theorem try_new_roundtrip (page tile : Vec2) :
    (palette_in_range page = true ∧ palette_in_range tile = true →
      ∃ h, TileDefinitionHandle.try_new page tile = some h ∧
        h.pageVec = page ∧ h.tileVec = tile)
    ∧ (¬(palette_in_range page = true ∧ palette_in_range tile = true) →
      TileDefinitionHandle.try_new page tile = none) := by
  constructor
  · rintro ⟨hp, ht⟩
    exact ⟨⟨page, tile⟩, by simp [TileDefinitionHandle.try_new, try_position, hp, ht], rfl, rfl⟩
  · intro h
    by_cases hp : palette_in_range page = true
    · by_cases ht : palette_in_range tile = true
      · exact absurd ⟨hp, ht⟩ h
      · simp [TileDefinitionHandle.try_new, try_position, hp, ht]
    · simp [TileDefinitionHandle.try_new, try_position, hp]

/-- C7 witness: a concrete in-range round-trip and a concrete out-of-range
rejection, obtained from `try_new_roundtrip`. -/
theorem try_new_roundtrip_witness :
    TileDefinitionHandle.try_new ⟨5, 6⟩ ⟨7, 8⟩ = some ⟨⟨5, 6⟩, ⟨7, 8⟩⟩
    ∧ TileDefinitionHandle.try_new ⟨40000, 0⟩ ⟨0, 0⟩ = none := by
  refine ⟨?_, (try_new_roundtrip ⟨40000, 0⟩ ⟨0, 0⟩).2 (by decide)⟩
  obtain ⟨h, hsome, hp, ht⟩ := (try_new_roundtrip ⟨5, 6⟩ ⟨7, 8⟩).1 (by decide)
  cases h with
  | mk pg tl =>
    simp only [TileDefinitionHandle.pageVec, TileDefinitionHandle.tileVec] at hp ht
    subst hp; subst ht; exact hsome

/-- C6: `RepeatTileSource::get_at` forwards the Euclidean-wrapped position
(non-negative and below the rectangle size per axis) to the underlying source,
and the result is periodic with period `(w, h)`: `pos` and
`pos + (k*w, k*h)` forward the same wrapped position for every integer `k`. -/
theorem repeat_get_at_periodic (sourceGetAt : Vec2 → Option TileDefinitionHandle)
    (region : TileRegion) (rect : TileRect) (p : Vec2) (k : Int)
    (hb : region.bounds = some rect)
    (hw : 0 < rect.size.x) (hh : 0 < rect.size.y) :
    0 ≤ (repeat_wrapped region rect p).x
    ∧ (repeat_wrapped region rect p).x < rect.size.x
    ∧ 0 ≤ (repeat_wrapped region rect p).y
    ∧ (repeat_wrapped region rect p).y < rect.size.y
    ∧ repeat_get_at sourceGetAt region p
        = sourceGetAt (repeat_wrapped region rect p + rect.position)
    ∧ repeat_get_at sourceGetAt region ⟨p.x + k * rect.size.x, p.y + k * rect.size.y⟩
        = sourceGetAt (repeat_wrapped region rect p + rect.position) := by
  refine ⟨Int.emod_nonneg _ (by omega), Int.emod_lt_of_pos _ hw,
    Int.emod_nonneg _ (by omega), Int.emod_lt_of_pos _ hh, ?_, ?_⟩
  · simp [repeat_get_at, hb, repeat_wrapped]
  · simp only [repeat_get_at, hb, repeat_wrapped]
    have hx : (p.x + k * rect.size.x + region.origin.x - rect.position.x) % rect.size.x
        = (p.x + region.origin.x - rect.position.x) % rect.size.x := by
      have : p.x + k * rect.size.x + region.origin.x - rect.position.x
          = p.x + region.origin.x - rect.position.x + k * rect.size.x := by ring
      rw [this, Int.add_mul_emod_self]
    have hy : (p.y + k * rect.size.y + region.origin.y - rect.position.y) % rect.size.y
        = (p.y + region.origin.y - rect.position.y) % rect.size.y := by
      have : p.y + k * rect.size.y + region.origin.y - rect.position.y
          = p.y + region.origin.y - rect.position.y + k * rect.size.y := by ring
      rw [this, Int.add_mul_emod_self]
    simp [hx, hy]

/-- C6 witness: the repeat wrap at a concrete region, position and period
multiple, via `repeat_get_at_periodic`. -/
theorem repeat_get_at_periodic_witness :
    0 ≤ (repeat_wrapped c6Region ⟨⟨0, 0⟩, ⟨3, 2⟩⟩ ⟨7, -5⟩).x
    ∧ (repeat_wrapped c6Region ⟨⟨0, 0⟩, ⟨3, 2⟩⟩ ⟨7, -5⟩).x < (3 : Int)
    ∧ 0 ≤ (repeat_wrapped c6Region ⟨⟨0, 0⟩, ⟨3, 2⟩⟩ ⟨7, -5⟩).y
    ∧ (repeat_wrapped c6Region ⟨⟨0, 0⟩, ⟨3, 2⟩⟩ ⟨7, -5⟩).y < (2 : Int)
    ∧ repeat_get_at noGetAt c6Region ⟨7, -5⟩
        = noGetAt (repeat_wrapped c6Region ⟨⟨0, 0⟩, ⟨3, 2⟩⟩ ⟨7, -5⟩ + ⟨0, 0⟩)
    ∧ repeat_get_at noGetAt c6Region ⟨7 + 4 * 3, -5 + 4 * 2⟩
        = noGetAt (repeat_wrapped c6Region ⟨⟨0, 0⟩, ⟨3, 2⟩⟩ ⟨7, -5⟩ + ⟨0, 0⟩) :=
  repeat_get_at_periodic noGetAt c6Region ⟨⟨0, 0⟩, ⟨3, 2⟩⟩ ⟨7, -5⟩ 4 rfl
    (by decide) (by decide)

/-- C10: when the cache holds no visibility entry for the observer's grid cell
and the node, `is_visible` reports `false` while `needs_occlusion_query`
reports `true`. -/
theorem is_visible_false_when_absent {W : Type} (worldToGrid : W → Vec3)
    (st : ObserverVisibilityCache W) (observer_position : W) (node : Nat)
    (h : visibility_info worldToGrid st observer_position node = none) :
    cache_is_visible worldToGrid st observer_position node = false
    ∧ cache_needs_occlusion_query worldToGrid st observer_position node = true := by
  simp [cache_is_visible, cache_needs_occlusion_query, h]

/-- C10 witness: the empty cache at a concrete observer and node, via
`is_visible_false_when_absent`. -/
theorem is_visible_false_when_absent_witness :
    visibility_info unitToGrid emptyCacheU () 0 = none
    ∧ cache_is_visible unitToGrid emptyCacheU () 0 = false
    ∧ cache_needs_occlusion_query unitToGrid emptyCacheU () 0 = true :=
  ⟨rfl, is_visible_false_when_absent unitToGrid emptyCacheU () 0 rfl⟩

/-- Marking the last element of a pending list as ended rewrites exactly the
last entry and keeps everything else. -/
theorem endLastQuery_append {W : Type} (pqs : List (PendingQuery W)) (pq : PendingQuery W) :
    endLastQuery (pqs ++ [pq])
      = pqs ++ [{ pq with query := { pq.query with ended := true } }] := by
  induction pqs with
  | nil => rfl
  | cons a rest ih =>
    rcases hr : rest ++ [pq] with _ | ⟨b, t⟩
    · simp at hr
    · have : endLastQuery (a :: rest ++ [pq]) = a :: endLastQuery (rest ++ [pq]) := by
        rw [List.cons_append, hr]
        rfl
      rw [this, ih]
      simp

/-- C8: `end_query` panics (models as `none`) exactly when the pending list is
empty; otherwise it ends the most recently begun pending query — the last
entry of the pending list is marked ended, and no entry is removed (cells and
every earlier pending entry are untouched). -/
theorem end_query_spec {W : Type} (st : ObserverVisibilityCache W) :
    (end_query st = none ↔ st.pending_queries = [])
    ∧ (∀ pqs pq, st.pending_queries = pqs ++ [pq] →
        end_query st = some { st with pending_queries :=
          pqs ++ [{ pq with query := { pq.query with ended := true } }] }) := by
  constructor
  · rcases hp : st.pending_queries with _ | ⟨a, rest⟩
    · simp [end_query, hp]
    · simp [end_query, hp]
  · intro pqs pq hp
    rcases hq : st.pending_queries with _ | ⟨a, rest⟩
    · exact absurd (hp ▸ hq) (by simp)
    · simp only [end_query, hq]
      rw [← hq, hp, endLastQuery_append]

/-- C8 witness: ending the single pending query of a concrete cache marks it
ended without removing it, and `end_query` on an empty pending list is the
fatal case, via `end_query_spec`. -/
theorem end_query_spec_witness :
    end_query c8Cache = some
      { cells := emptyCells
        pending_queries :=
          [{ query := { ended := true, result := some true }, observer_position := (), node := 0 }] }
    ∧ end_query emptyCacheU = none :=
  ⟨(end_query_spec c8Cache).2 [] pq0 rfl, (end_query_spec emptyCacheU).1.mpr rfl⟩

/-- C2 counterexample: a node that exists in the graph, an observer inside its
bounding box, and a cache that already holds `Invisible` for (grid cell, node).
The call does return `Ok(false)` with no query issued, but the cache entry
afterwards is still `Invisible`, not `Visible`, because `entry().or_insert`
keeps an existing value. -/
theorem begin_conditional_query_claim_cex :
    begin_conditional_query unitToGrid sampleGraph containsAlways
        (some { ended := false, result := none }) () 0 c2Cache
      = some (false,
          { cells := cellsOrInsert invisibleCells ⟨0, 0, 0⟩ 0 Visibility.visible
            pending_queries := [] })
    ∧ cellsOrInsert invisibleCells ⟨0, 0, 0⟩ 0 Visibility.visible ⟨0, 0, 0⟩ 0
        = some Visibility.invisible
    ∧ some Visibility.invisible ≠ some Visibility.visible :=
  ⟨rfl, by decide, by decide⟩

/-- C2 amended: when the node exists and its bounding box contains the
observer, `begin_conditional_query` returns `Ok(false)`, adds no pending
query, and the cache entry for (observer's grid cell, node) afterwards is
`Visible` if it was absent and keeps its previous value otherwise
(`entry().or_insert(Visible)`); all other entries are unchanged. -/
theorem begin_conditional_query_inside {W B : Type} (worldToGrid : W → Vec3)
    (graph : Nat → Option B) (containsObserver : B → W → Bool)
    (newQuery : Option QueryModel) (observer_position : W) (node : Nat)
    (st : ObserverVisibilityCache W) (node_ref : B)
    (hnode : graph node = some node_ref)
    (hin : containsObserver node_ref observer_position = true) :
    begin_conditional_query worldToGrid graph containsObserver newQuery observer_position node st
      = some (false,
          ⟨cellsOrInsert st.cells (worldToGrid observer_position) node Visibility.visible,
            st.pending_queries⟩)
    ∧ cellsOrInsert st.cells (worldToGrid observer_position) node Visibility.visible
        (worldToGrid observer_position) node
        = some ((st.cells (worldToGrid observer_position) node).getD Visibility.visible)
    ∧ ∀ g' n', ¬(g' = worldToGrid observer_position ∧ n' = node) →
        cellsOrInsert st.cells (worldToGrid observer_position) node Visibility.visible g' n'
          = st.cells g' n' := by
  refine ⟨by simp [begin_conditional_query, hnode, hin], ?_, ?_⟩
  · simp only [cellsOrInsert, if_pos (And.intro rfl rfl)]
    rcases st.cells (worldToGrid observer_position) node with _ | v <;> rfl
  · intro g' n' hne
    simp [cellsOrInsert, hne]

/-- C2 amended witness: a concrete call with an absent entry yields a `Visible`
entry and `Ok(false)`, via `begin_conditional_query_inside`. -/
theorem begin_conditional_query_inside_witness :
    begin_conditional_query unitToGrid sampleGraph containsAlways
        (some { ended := false, result := none }) () 0 emptyCacheU
      = some (false,
          { cells := cellsOrInsert emptyCells ⟨0, 0, 0⟩ 0 Visibility.visible
            pending_queries := [] })
    ∧ cellsOrInsert emptyCells ⟨0, 0, 0⟩ 0 Visibility.visible ⟨0, 0, 0⟩ 0
        = some Visibility.visible := by
  have h := begin_conditional_query_inside unitToGrid sampleGraph containsAlways
    (some { ended := false, result := none }) () 0 emptyCacheU () rfl rfl
  exact ⟨h.1, by decide⟩

/-- The query-processing pass of `update` folds `apply_query_result` over the
completed results that target a given (cell, node), in issuance order, starting
from the cached value. -/
theorem process_pending_lookup {W : Type} (worldToGrid : W → Vec3) :
    ∀ (pending : List (PendingQuery W)) (cells : Cells)
      (out : Cells × List (PendingQuery W)),
      process_pending_queries worldToGrid cells pending = some out →
      ∀ cell node v, cells cell node = some v →
        out.1 cell node
          = some ((completedResultsFor worldToGrid pending cell node).foldl
              apply_query_result v) := by
  intro pending
  induction pending with
  | nil =>
    intro cells out hout cell node v hv
    simp only [process_pending_queries, Option.some.injEq] at hout
    subst hout
    simpa [completedResultsFor] using hv
  | cons pq rest ih =>
    intro cells out hout cell node v hv
    rcases hres : pq.query.result with _ | r
    · simp only [process_pending_queries, hres, Option.map_eq_some'] at hout
      obtain ⟨r', hr', hout⟩ := hout
      subst hout
      have := ih cells r' hr' cell node v hv
      simpa [completedResultsFor, hres] using this
    · simp only [process_pending_queries, hres] at hout
      rcases hcell : cells (worldToGrid pq.observer_position) pq.node with _ | w
      · rw [hcell] at hout
        exact absurd hout (by simp)
      · rw [hcell] at hout
        by_cases htarget : worldToGrid pq.observer_position = cell ∧ pq.node = node
        · obtain ⟨ht1, ht2⟩ := htarget
          have hw : w = v := by
            rw [ht1, ht2] at hcell
            rw [hv] at hcell
            exact Option.some.inj hcell.symm
          subst hw
          have hnew : (fun g n =>
              if g = worldToGrid pq.observer_position ∧ n = pq.node then
                some (apply_query_result w r)
              else cells g n) cell node = some (apply_query_result w r) := by
            simp [ht1, ht2]
          have := ih _ out hout cell node (apply_query_result w r) hnew
          rw [this]
          have hcrf : completedResultsFor worldToGrid (pq :: rest) cell node
              = r :: completedResultsFor worldToGrid rest cell node := by
            simp [completedResultsFor, ht1, ht2, hres]
          rw [hcrf]
          rfl
        · have hnew : (fun g n =>
              if g = worldToGrid pq.observer_position ∧ n = pq.node then
                some (apply_query_result w r)
              else cells g n) cell node = some v := by
            have hne : ¬(cell = worldToGrid pq.observer_position ∧ node = pq.node) := by
              intro ⟨h1, h2⟩
              exact htarget ⟨h1.symm, h2.symm⟩
            simp only [if_neg hne]
            exact hv
          have := ih _ out hout cell node v hnew
          rw [this]
          have hcrf : completedResultsFor worldToGrid (pq :: rest) cell node
              = completedResultsFor worldToGrid rest cell node := by
            simp [completedResultsFor, htarget]
          rw [hcrf]

/-- C1: over a whole `update` pass, a cached visibility value is transformed by
folding `apply_query_result` over the completed query results for its
(cell, node) — or the cell is evicted — and `apply_query_result` never
downgrades `Visible`, upgrades `Invisible` to `Visible` exactly on a positive
result, and resolves `Undefined` to `Visible` on a positive result and
`Invisible` on a negative one. -/
theorem update_visibility_transitions {W : Type} (worldToGrid : W → Vec3)
    (keep : Vec3 → Bool) (st : ObserverVisibilityCache W)
    (cell : Vec3) (node : Nat) (v : Visibility)
    (hv : st.cells cell node = some v) :
    (∀ st', cache_update worldToGrid keep st = some st' →
      st'.cells cell node = none ∨
      st'.cells cell node
        = some ((completedResultsFor worldToGrid st.pending_queries cell node).foldl
            apply_query_result v))
    ∧ (∀ results : List Bool,
        results.foldl apply_query_result Visibility.visible = Visibility.visible)
    ∧ (∀ r, apply_query_result Visibility.visible r = Visibility.visible)
    ∧ apply_query_result Visibility.invisible true = Visibility.visible
    ∧ apply_query_result Visibility.invisible false = Visibility.invisible
    ∧ apply_query_result Visibility.undefined true = Visibility.visible
    ∧ apply_query_result Visibility.undefined false = Visibility.invisible := by
  refine ⟨?_, ?_, fun r => by cases r <;> rfl, rfl, rfl, rfl, rfl⟩
  swap
  · intro results
    induction results with
    | nil => rfl
    | cons r rest ih =>
      rw [List.foldl_cons]
      cases r <;> exact ih
  intro st' hupd
  simp only [cache_update, Option.map_eq_some'] at hupd
  obtain ⟨out, hout, hst'⟩ := hupd
  subst hst'
  by_cases hk : keep cell
  · right
    simp only [hk, if_true]
    exact process_pending_lookup worldToGrid st.pending_queries st.cells out hout cell node v hv
  · left
    simp [hk]

/-- C1 witness: a concrete cache holding `Invisible` for cell (0,0,0), node 0,
with one completed positive query, via `update_visibility_transitions`. -/
theorem update_visibility_transitions_witness :
    sampleCacheInvisible.cells ⟨0, 0, 0⟩ 0 = some Visibility.invisible
    ∧ ((∀ st', cache_update unitToGrid keepAll sampleCacheInvisible = some st' →
        st'.cells ⟨0, 0, 0⟩ 0 = none ∨
        st'.cells ⟨0, 0, 0⟩ 0
          = some ((completedResultsFor unitToGrid sampleCacheInvisible.pending_queries
              ⟨0, 0, 0⟩ 0).foldl apply_query_result Visibility.invisible))
      ∧ (∀ results : List Bool,
          results.foldl apply_query_result Visibility.visible = Visibility.visible)
      ∧ (∀ r, apply_query_result Visibility.visible r = Visibility.visible)
      ∧ apply_query_result Visibility.invisible true = Visibility.visible
      ∧ apply_query_result Visibility.invisible false = Visibility.invisible
      ∧ apply_query_result Visibility.undefined true = Visibility.visible
      ∧ apply_query_result Visibility.undefined false = Visibility.invisible) :=
  ⟨by decide,
    update_visibility_transitions unitToGrid keepAll sampleCacheInvisible
      ⟨0, 0, 0⟩ 0 Visibility.invisible (by decide)⟩

/-- C3: for every update variant whose swap arm is not the fatal
`Erase`/`TransformSet`/`Material` case, applying `swap_with_data` twice in
succession restores the tile data exactly, in every field. -/
theorem swap_with_data_twice_id (u : TileDataUpdate) (d : TileData)
    (h : u.swapPanics = false) :
    swap_twice u d = some d := by
  cases u with
  | erase => simp [TileDataUpdate.swapPanics] at h
  | transformSet h' => simp [TileDataUpdate.swapPanics] at h
  | material b => simp [TileDataUpdate.swapPanics] at h
  | materialTile td => rfl
  | freeformTile def' =>
    simp only [swap_twice, TileDataUpdate.swap_with_data]
  | color c =>
    simp only [swap_twice, TileDataUpdate.swap_with_data]
  | collider uuid value =>
    simp only [swap_twice, TileDataUpdate.swap_with_data, swap_hash_map_entry,
      Option.some.injEq]
    cases d with
    | mk dc dp dcol =>
      simp only [TileData.mk.injEq, and_true, true_and]
      funext k
      by_cases hk : k = uuid <;> simp [hk]
  | property uuid value =>
    simp only [swap_twice, TileDataUpdate.swap_with_data, swap_hash_map_entry,
      Option.some.injEq]
    cases d with
    | mk dc dp dcol =>
      simp only [TileData.mk.injEq, and_true, true_and]
      funext k
      by_cases hk : k = uuid <;> simp [hk]
  | propertySlice uuid value =>
    cases d with
    | mk dc dp dcol =>
      rcases hp : dp uuid with _ | pv
      · simp only [swap_twice, TileDataUpdate.swap_with_data, hp]
        simp only [swap_hash_map_entry, Option.some.injEq, TileData.mk.injEq,
          true_and, and_true]
        funext k
        by_cases hk : k = uuid
        · subst hk
          simp only [if_pos rfl]
          exact hp.symm
        · simp [hk]
      · cases pv with
        | other t =>
          simp [swap_twice, TileDataUpdate.swap_with_data, hp]
        | nineSlice v0 =>
          simp [swap_twice, TileDataUpdate.swap_with_data, hp]
          funext k
          by_cases hk : k = uuid
          · subst hk
            simp only [if_pos rfl, if_true]
            rw [hp]
            simp only [Option.some.injEq, TileSetPropertyValue.nineSlice.injEq]
            funext i
            rcases hvi : value i with _ | x <;> simp [hvi]
          · simp [hk]

/-- C3 witness: a concrete color swap applied twice restores the data, via
`swap_with_data_twice_id`. -/
theorem swap_with_data_twice_id_witness :
    swap_twice (TileDataUpdate.color ⟨5⟩) emptyTileData = some emptyTileData :=
  swap_with_data_twice_id (TileDataUpdate.color ⟨5⟩) emptyTileData rfl

/-- Shadowing-cons lookup after insert. -/
theorem gmLookup_insert {V : Type} (m : List (Vec2 × V)) (q p : Vec2) (v : V) :
    gmLookup (gmInsert m q v) p = if q = p then some v else gmLookup m p := rfl

/-- Key membership after insert. -/
theorem gmContains_insert {V : Type} (m : List (Vec2 × V)) (q p : Vec2) (v : V) :
    gmContains (gmInsert m q v) p = true ↔ q = p ∨ gmContains m p = true := by
  by_cases h : q = p <;> simp [gmContains, gmInsert, gmLookup, h]

/-- A map contains a key iff the key occurs in its key list. -/
theorem gmContains_iff_mem {V : Type} (m : List (Vec2 × V)) (p : Vec2) :
    gmContains m p = true ↔ p ∈ gmKeys m := by
  induction m with
  | nil => simp [gmContains, gmLookup, gmKeys]
  | cons a rest ih =>
    rcases a with ⟨q, v⟩
    by_cases h : q = p
    · subst h
      simp [gmContains, gmLookup, gmKeys]
    · simp only [gmContains, gmLookup, if_neg h, gmKeys, List.map_cons, List.mem_cons]
      simp only [gmKeys] at ih
      constructor
      · intro hh
        exact Or.inr (ih.mp hh)
      · rintro (hh | hh)
        · exact absurd hh.symm h
        · exact ih.mpr hh

/-- A position is produced by the rectangle iterator exactly when the rectangle
contains it. -/
theorem mem_positionsList (r : TileRect) (p : Vec2) :
    p ∈ r.positionsList ↔ rect_contains r p = true := by
  rcases p with ⟨px, py⟩
  simp only [TileRect.positionsList, List.mem_flatMap, List.mem_map, List.mem_range,
    rect_contains, decide_eq_true_eq]
  constructor
  · rintro ⟨j, hj, i, hi, hEq⟩
    rw [Vec2.mk.injEq] at hEq
    obtain ⟨hx, hy⟩ := hEq
    constructor
    · omega
    constructor
    · omega
    constructor
    · omega
    · omega
  · rintro ⟨h1, h2, h3, h4⟩
    refine ⟨(py - r.position.y).toNat, by omega, (px - r.position.x).toNat, by omega, ?_⟩
    rw [Vec2.mk.injEq]
    constructor
    · omega
    · omega

/-- Membership in the cell Finset of an optional rectangle is containment. -/
theorem mem_boundsFinset (b : Option TileRect) (p : Vec2) :
    p ∈ boundsFinset b ↔ opt_rect_contains b p = true := by
  cases b with
  | none => simp [boundsFinset, opt_rect_positions, opt_rect_contains]
  | some r =>
    simp [boundsFinset, opt_rect_positions, opt_rect_contains, mem_positionsList]

/-- Pushing a point into an optional rectangle makes it contain the point. -/
theorem opt_rect_push_contains_self (b : Option TileRect) (p : Vec2) :
    opt_rect_contains (opt_rect_push b p) p = true := by
  cases b with
  | none =>
    simp only [opt_rect_push, opt_rect_contains, rect_contains, decide_eq_true_eq]
    omega
  | some r =>
    simp only [opt_rect_push, opt_rect_contains, rect_push, rect_contains,
      decide_eq_true_eq]
    omega

/-- `rect_fill_inner` only writes cells of the target region's bounds. -/
theorem rect_fill_inner_writes (region : TileRegion) (trans : OrthoTransformation)
    (getAt : Vec2 → Option TileDefinitionHandle) (u : TransTilesUpdate) (p : Vec2)
    (hp : gmContains (rect_fill_inner u region trans getAt) p = true) :
    gmContains u p = true ∨ opt_rect_contains region.bounds p = true := by
  have main : ∀ (l : List (Vec2 × Vec2)) (u' : TransTilesUpdate),
      gmContains (l.foldl (fun acc ts =>
        match getAt ts.2 with
        | some h => gmInsert acc ts.1 (some (trans, h))
        | none => acc) u') p = true →
      gmContains u' p = true ∨ ∃ ts ∈ l, ts.1 = p := by
    intro l
    induction l with
    | nil =>
      intro u' hp'
      exact Or.inl hp'
    | cons ts rest ih =>
      intro u' hp'
      simp only [List.foldl_cons] at hp'
      rcases hga : getAt ts.2 with _ | h
      · rw [hga] at hp'
        rcases ih _ hp' with h1 | ⟨ts', hts', he⟩
        · exact Or.inl h1
        · exact Or.inr ⟨ts', List.mem_cons_of_mem _ hts', he⟩
      · rw [hga] at hp'
        rcases ih _ hp' with h1 | ⟨ts', hts', he⟩
        · rcases (gmContains_insert _ _ _ _).mp h1 with he | h2
          · exact Or.inr ⟨ts, List.mem_cons_self _ _, he⟩
          · exact Or.inl h2
        · exact Or.inr ⟨ts', List.mem_cons_of_mem _ hts', he⟩
  rcases main region.iterList u hp with h1 | ⟨ts, hts, he⟩
  · exact Or.inl h1
  · right
    simp only [TileRegion.iterList, List.mem_map] at hts
    obtain ⟨q, hq, rfl⟩ := hts
    cases hb : region.bounds with
    | none =>
      rw [hb] at hq
      simp [opt_rect_positions] at hq
    | some rect =>
      rw [hb] at hq
      simp only [opt_rect_positions] at hq
      subst he
      simpa [opt_rect_contains] using (mem_positionsList rect q).mp hq

/-- The corner-placement step writes at most the corner position. -/
theorem corner_insert_writes (u : TransTilesUpdate) (acp : Vec2)
    (trans : OrthoTransformation) (o : Option TileDefinitionHandle) (p : Vec2)
    (hp : gmContains (match o with
      | some t => gmInsert u acp (some (trans, t))
      | none => u) p = true) :
    gmContains u p = true ∨ p = acp := by
  rcases o with _ | t
  · exact Or.inl hp
  · rcases (gmContains_insert _ _ _ _).mp hp with he | h2
    · exact Or.inr he.symm
    · exact Or.inl h2

/-- `corner_place` writes at most the target corner position. -/
theorem corner_place_writes (stamp : Stamp) (u : TransTilesUpdate) (cp acp p : Vec2)
    (hp : gmContains (corner_place stamp u cp acp) p = true) :
    gmContains u p = true ∨ p = acp := by
  unfold corner_place at hp
  exact corner_insert_writes u acp stamp.transform (stamp.get_at cp) p hp

/-- The corner loop writes at most the four corners of the target rectangle. -/
theorem nine_slice_corners_writes (u₀ : TransTilesUpdate) (stamp : Stamp)
    (stamp_rect rect : TileRect) (p : Vec2)
    (hp : gmContains (nine_slice_corners u₀ stamp stamp_rect rect) p = true) :
    gmContains u₀ p = true
    ∨ p = rect.left_top_corner ∨ p = rect.right_top_corner
    ∨ p = rect.right_bottom_corner ∨ p = rect.left_bottom_corner := by
  unfold nine_slice_corners at hp
  rcases corner_place_writes _ _ _ _ _ hp with hp | he
  · rcases corner_place_writes _ _ _ _ _ hp with hp | he
    · rcases corner_place_writes _ _ _ _ _ hp with hp | he
      · rcases corner_place_writes _ _ _ _ _ hp with hp | he
        · exact Or.inl hp
        · exact Or.inr (Or.inl he)
      · exact Or.inr (Or.inr (Or.inl he))
    · exact Or.inr (Or.inr (Or.inr (Or.inl he)))
  · exact Or.inr (Or.inr (Or.inr (Or.inr he)))

/-- Write confinement of the nine-slice placement: every cell written (beyond
the initial update) is a target corner, an edge strip of a non-degenerate axis,
or the deflated interior. -/
theorem nine_slice_core_writes
    (u₀ : TransTilesUpdate) (start end_ : Vec2) (stamp : Stamp) (stamp_rect : TileRect)
    (fill : TransTilesUpdate → TileRegion → TileRegion → TransTilesUpdate)
    (hfill : ∀ u tr sr q, gmContains (fill u tr sr) q = true →
      gmContains u q = true ∨ opt_rect_contains tr.bounds q = true)
    (p : Vec2)
    (hp : gmContains (nine_slice_core u₀ start end_ stamp stamp_rect fill) p = true) :
    gmContains u₀ p = true
    ∨ p = (TileRect.from_points start end_).left_top_corner
    ∨ p = (TileRect.from_points start end_).right_top_corner
    ∨ p = (TileRect.from_points start end_).right_bottom_corner
    ∨ p = (TileRect.from_points start end_).left_bottom_corner
    ∨ (((TileRect.from_points start end_).size.x > 2 ∧ stamp_rect.size.x > 2) ∧
        (rect_contains (TileRect.from_points
            ((TileRect.from_points start end_).left_top_corner + ⟨1, 0⟩)
            ((TileRect.from_points start end_).right_top_corner + ⟨-1, 0⟩)) p = true
          ∨ rect_contains (TileRect.from_points
            ((TileRect.from_points start end_).left_bottom_corner + ⟨1, 0⟩)
            ((TileRect.from_points start end_).right_bottom_corner + ⟨-1, 0⟩)) p = true))
    ∨ (((TileRect.from_points start end_).size.y > 2 ∧ stamp_rect.size.y > 2) ∧
        (rect_contains (TileRect.from_points
            ((TileRect.from_points start end_).left_bottom_corner + ⟨0, 1⟩)
            ((TileRect.from_points start end_).left_top_corner + ⟨0, -1⟩)) p = true
          ∨ rect_contains (TileRect.from_points
            ((TileRect.from_points start end_).right_bottom_corner + ⟨0, 1⟩)
            ((TileRect.from_points start end_).right_top_corner + ⟨0, -1⟩)) p = true))
    ∨ opt_rect_contains (opt_rect_deflate (some (TileRect.from_points start end_)) 1 1) p
        = true := by
  simp only [nine_slice_core] at hp
  rcases hfill _ _ _ _ hp with hp | hinner
  swap
  · refine Or.inr (Or.inr (Or.inr (Or.inr (Or.inr (Or.inr (Or.inr ?_))))))
    simpa [TileRegion.deflate] using hinner
  have corners_case :
      gmContains (nine_slice_corners u₀ stamp stamp_rect (TileRect.from_points start end_))
          p = true →
      gmContains u₀ p = true
      ∨ p = (TileRect.from_points start end_).left_top_corner
      ∨ p = (TileRect.from_points start end_).right_top_corner
      ∨ p = (TileRect.from_points start end_).right_bottom_corner
      ∨ p = (TileRect.from_points start end_).left_bottom_corner := by
    intro hc
    exact nine_slice_corners_writes _ _ _ _ _ hc
  by_cases hgy : (TileRect.from_points start end_).size.y > 2 ∧ stamp_rect.size.y > 2
  · rw [if_pos hgy] at hp
    rcases hfill _ _ _ _ hp with hp | hright
    swap
    · refine Or.inr (Or.inr (Or.inr (Or.inr (Or.inr (Or.inr (Or.inl ⟨hgy, Or.inr ?_⟩))))))
      simpa [TileRegion.with_bounds, opt_rect_contains] using hright
    rcases hfill _ _ _ _ hp with hp | hleft
    swap
    · refine Or.inr (Or.inr (Or.inr (Or.inr (Or.inr (Or.inr (Or.inl ⟨hgy, Or.inl ?_⟩))))))
      simpa [TileRegion.with_bounds, opt_rect_contains] using hleft
    by_cases hgx : (TileRect.from_points start end_).size.x > 2 ∧ stamp_rect.size.x > 2
    · rw [if_pos hgx] at hp
      rcases hfill _ _ _ _ hp with hp | hbot
      swap
      · refine Or.inr (Or.inr (Or.inr (Or.inr (Or.inr (Or.inl ⟨hgx, Or.inr ?_⟩)))))
        simpa [TileRegion.with_bounds, opt_rect_contains] using hbot
      rcases hfill _ _ _ _ hp with hp | htop
      swap
      · refine Or.inr (Or.inr (Or.inr (Or.inr (Or.inr (Or.inl ⟨hgx, Or.inl ?_⟩)))))
        simpa [TileRegion.with_bounds, opt_rect_contains] using htop
      rcases corners_case hp with hbase | hcorn
      · exact Or.inl hbase
      · exact Or.inr (hcorn.imp id fun hx => hx.imp id fun hy => hy.imp id Or.inl)
    · rw [if_neg hgx] at hp
      rcases corners_case hp with hbase | hcorn
      · exact Or.inl hbase
      · exact Or.inr (hcorn.imp id fun hx => hx.imp id fun hy => hy.imp id Or.inl)
  · rw [if_neg hgy] at hp
    by_cases hgx : (TileRect.from_points start end_).size.x > 2 ∧ stamp_rect.size.x > 2
    · rw [if_pos hgx] at hp
      rcases hfill _ _ _ _ hp with hp | hbot
      swap
      · refine Or.inr (Or.inr (Or.inr (Or.inr (Or.inr (Or.inl ⟨hgx, Or.inr ?_⟩)))))
        simpa [TileRegion.with_bounds, opt_rect_contains] using hbot
      rcases hfill _ _ _ _ hp with hp | htop
      swap
      · refine Or.inr (Or.inr (Or.inr (Or.inr (Or.inr (Or.inl ⟨hgx, Or.inl ?_⟩)))))
        simpa [TileRegion.with_bounds, opt_rect_contains] using htop
      rcases corners_case hp with hbase | hcorn
      · exact Or.inl hbase
      · exact Or.inr (hcorn.imp id fun hx => hx.imp id fun hy => hy.imp id Or.inl)
    · rw [if_neg hgx] at hp
      rcases corners_case hp with hbase | hcorn
      · exact Or.inl hbase
      · exact Or.inr (hcorn.imp id fun hx => hx.imp id fun hy => hy.imp id Or.inl)

/-- Degenerate-width nine-slice placement: with a target narrower than 3 cells,
every written cell is a corner or on the left/right edge strips. -/
theorem nine_slice_inner_degenerate_x (u₀ : TransTilesUpdate) (start end_ : Vec2)
    (stamp : Stamp) (stamp_rect : TileRect)
    (fill : TransTilesUpdate → TileRegion → TileRegion → TransTilesUpdate)
    (hsr : Stamp.bounding_rect stamp = some stamp_rect)
    (hfill : ∀ u tr sr q, gmContains (fill u tr sr) q = true →
      gmContains u q = true ∨ opt_rect_contains tr.bounds q = true)
    (hx : (TileRect.from_points start end_).size.x ≤ 2)
    (p : Vec2) (hp : gmContains (nine_slice_inner u₀ start end_ stamp fill) p = true) :
    gmContains u₀ p = true
    ∨ nineSliceAllowedX (TileRect.from_points start end_) p = true := by
  unfold nine_slice_inner at hp
  rw [hsr] at hp
  rcases nine_slice_core_writes u₀ start end_ stamp stamp_rect fill hfill p hp with
    h | h | h | h | h | ⟨hg, _⟩ | ⟨hg, hstrip⟩ | h
  · exact Or.inl h
  · exact Or.inr (by
      simp only [nineSliceAllowedX, decide_eq_true_eq]
      exact Or.inl h)
  · exact Or.inr (by
      simp only [nineSliceAllowedX, decide_eq_true_eq]
      exact Or.inr (Or.inl h))
  · exact Or.inr (by
      simp only [nineSliceAllowedX, decide_eq_true_eq]
      exact Or.inr (Or.inr (Or.inl h)))
  · exact Or.inr (by
      simp only [nineSliceAllowedX, decide_eq_true_eq]
      exact Or.inr (Or.inr (Or.inr (Or.inl h))))
  · exact absurd hg.1 (by omega)
  · right
    simp only [nineSliceAllowedX, decide_eq_true_eq]
    refine Or.inr (Or.inr (Or.inr (Or.inr ?_)))
    rcases p with ⟨px, py⟩
    rcases hstrip with hs | hs <;>
      simp only [rect_contains, TileRect.from_points, TileRect.left_bottom_corner,
        TileRect.left_top_corner, TileRect.right_bottom_corner, TileRect.right_top_corner,
        Vec2.add_x, Vec2.add_y, decide_eq_true_eq] at hs hg ⊢ <;> omega
  · exfalso
    simp only [opt_rect_deflate] at h
    rw [if_pos (Or.inl (by omega : (TileRect.from_points start end_).size.x - 2 * 1 ≤ 0))] at h
    simp [opt_rect_contains] at h

/-- Degenerate-height nine-slice placement: with a target shorter than 3 cells,
every written cell is a corner or on the top/bottom edge strips. -/
theorem nine_slice_inner_degenerate_y (u₀ : TransTilesUpdate) (start end_ : Vec2)
    (stamp : Stamp) (stamp_rect : TileRect)
    (fill : TransTilesUpdate → TileRegion → TileRegion → TransTilesUpdate)
    (hsr : Stamp.bounding_rect stamp = some stamp_rect)
    (hfill : ∀ u tr sr q, gmContains (fill u tr sr) q = true →
      gmContains u q = true ∨ opt_rect_contains tr.bounds q = true)
    (hy : (TileRect.from_points start end_).size.y ≤ 2)
    (p : Vec2) (hp : gmContains (nine_slice_inner u₀ start end_ stamp fill) p = true) :
    gmContains u₀ p = true
    ∨ nineSliceAllowedY (TileRect.from_points start end_) p = true := by
  unfold nine_slice_inner at hp
  rw [hsr] at hp
  rcases nine_slice_core_writes u₀ start end_ stamp stamp_rect fill hfill p hp with
    h | h | h | h | h | ⟨hg, hstrip⟩ | ⟨hg, _⟩ | h
  · exact Or.inl h
  · exact Or.inr (by
      simp only [nineSliceAllowedY, decide_eq_true_eq]
      exact Or.inl h)
  · exact Or.inr (by
      simp only [nineSliceAllowedY, decide_eq_true_eq]
      exact Or.inr (Or.inl h))
  · exact Or.inr (by
      simp only [nineSliceAllowedY, decide_eq_true_eq]
      exact Or.inr (Or.inr (Or.inl h)))
  · exact Or.inr (by
      simp only [nineSliceAllowedY, decide_eq_true_eq]
      exact Or.inr (Or.inr (Or.inr (Or.inl h))))
  · right
    simp only [nineSliceAllowedY, decide_eq_true_eq]
    refine Or.inr (Or.inr (Or.inr (Or.inr ?_)))
    rcases p with ⟨px, py⟩
    rcases hstrip with hs | hs <;>
      simp only [rect_contains, TileRect.from_points, TileRect.left_bottom_corner,
        TileRect.left_top_corner, TileRect.right_bottom_corner, TileRect.right_top_corner,
        Vec2.add_x, Vec2.add_y, decide_eq_true_eq] at hs hg ⊢ <;> omega
  · exact absurd hg.1 (by omega)
  · exfalso
    simp only [opt_rect_deflate] at h
    rw [if_pos (Or.inr (by omega : (TileRect.from_points start end_).size.y - 2 * 1 ≤ 0))] at h
    simp [opt_rect_contains] at h

/-- C5: nine-slice stamping (plain and random variant) onto a target rectangle
whose width (respectively height) is at most 2 writes, beyond the initial
update, only corner cells plus cells of the edge strips of the other axis —
never the degenerate axis's edge strips nor interior cells. -/
theorem nine_slice_degenerate (u : TransTilesUpdate) (start end_ : Vec2) (stamp : Stamp)
    (oracle : TileRegion → Vec2 → Option Vec2) (stamp_rect : TileRect)
    (hsr : Stamp.bounding_rect stamp = some stamp_rect) :
    ((TileRect.from_points start end_).size.x ≤ 2 →
      (∀ p, gmContains (nine_slice u start end_ stamp) p = true →
        gmContains u p = true ∨ nineSliceAllowedX (TileRect.from_points start end_) p = true)
      ∧ (∀ p, gmContains (nine_slice_random u start end_ stamp oracle) p = true →
        gmContains u p = true ∨ nineSliceAllowedX (TileRect.from_points start end_) p = true))
    ∧ ((TileRect.from_points start end_).size.y ≤ 2 →
      (∀ p, gmContains (nine_slice u start end_ stamp) p = true →
        gmContains u p = true ∨ nineSliceAllowedY (TileRect.from_points start end_) p = true)
      ∧ (∀ p, gmContains (nine_slice_random u start end_ stamp oracle) p = true →
        gmContains u p = true ∨ nineSliceAllowedY (TileRect.from_points start end_) p = true)) := by
  constructor
  · intro hx
    constructor
    · intro p hp
      exact nine_slice_inner_degenerate_x u start end_ stamp stamp_rect _ hsr
        (fun u' tr sr q hq => rect_fill_inner_writes tr stamp.transform _ u' q hq) hx p hp
    · intro p hp
      exact nine_slice_inner_degenerate_x u start end_ stamp stamp_rect _ hsr
        (fun u' tr sr q hq => rect_fill_inner_writes tr stamp.transform _ u' q hq) hx p hp
  · intro hy
    constructor
    · intro p hp
      exact nine_slice_inner_degenerate_y u start end_ stamp stamp_rect _ hsr
        (fun u' tr sr q hq => rect_fill_inner_writes tr stamp.transform _ u' q hq) hy p hp
    · intro p hp
      exact nine_slice_inner_degenerate_y u start end_ stamp stamp_rect _ hsr
        (fun u' tr sr q hq => rect_fill_inner_writes tr stamp.transform _ u' q hq) hy p hp

/-- C5 witness: a concrete 3×3 stamp stamped onto a width-2 target, via
`nine_slice_degenerate`. -/
theorem nine_slice_degenerate_witness :
    Stamp.bounding_rect stamp33 = some ⟨⟨0, 0⟩, ⟨3, 3⟩⟩
    ∧ (((TileRect.from_points ⟨0, 0⟩ ⟨1, 4⟩).size.x ≤ 2 →
        (∀ p, gmContains (nine_slice [] ⟨0, 0⟩ ⟨1, 4⟩ stamp33) p = true →
          gmContains ([] : TransTilesUpdate) p = true
          ∨ nineSliceAllowedX (TileRect.from_points ⟨0, 0⟩ ⟨1, 4⟩) p = true)
        ∧ (∀ p, gmContains (nine_slice_random [] ⟨0, 0⟩ ⟨1, 4⟩ stamp33 noOracle) p = true →
          gmContains ([] : TransTilesUpdate) p = true
          ∨ nineSliceAllowedX (TileRect.from_points ⟨0, 0⟩ ⟨1, 4⟩) p = true))
      ∧ ((TileRect.from_points ⟨0, 0⟩ ⟨1, 4⟩).size.y ≤ 2 →
        (∀ p, gmContains (nine_slice [] ⟨0, 0⟩ ⟨1, 4⟩ stamp33) p = true →
          gmContains ([] : TransTilesUpdate) p = true
          ∨ nineSliceAllowedY (TileRect.from_points ⟨0, 0⟩ ⟨1, 4⟩) p = true)
        ∧ (∀ p, gmContains (nine_slice_random [] ⟨0, 0⟩ ⟨1, 4⟩ stamp33 noOracle) p = true →
          gmContains ([] : TransTilesUpdate) p = true
          ∨ nineSliceAllowedY (TileRect.from_points ⟨0, 0⟩ ⟨1, 4⟩) p = true))) :=
  ⟨by decide, nine_slice_degenerate [] ⟨0, 0⟩ ⟨1, 4⟩ stamp33 noOracle ⟨⟨0, 0⟩, ⟨3, 3⟩⟩
    (by decide)⟩

/-- Key set after insert. -/
theorem keyFinset_insert {V : Type} (m : List (Vec2 × V)) (p : Vec2) (v : V) :
    keyFinset (gmInsert m p v) = insert p (keyFinset m) := by
  simp [keyFinset, gmInsert, gmKeys]

/-- Key Finset membership is `contains_key`. -/
theorem mem_keyFinset {V : Type} (m : List (Vec2 × V)) (p : Vec2) :
    p ∈ keyFinset m ↔ gmContains m p = true := by
  rw [keyFinset, List.mem_toFinset]
  exact (gmContains_iff_mem m p).symm

/-- Inserting a fresh in-bounds key strictly shrinks the unwritten-cell count —
the termination measure of the flood-fill loop. -/
theorem flood_measure_dec (b : Option TileRect) (u : TransTilesUpdate) (p : Vec2)
    (v : Option RotTileHandle)
    (hpb : opt_rect_contains b p = true) (hnc : ¬gmContains u p = true) :
    (boundsFinset b \ keyFinset (gmInsert u p v)).card + 1
      = (boundsFinset b \ keyFinset u).card := by
  rw [keyFinset_insert, Finset.sdiff_insert]
  have hmem : p ∈ boundsFinset b \ keyFinset u := by
    rw [Finset.mem_sdiff, mem_boundsFinset, mem_keyFinset]
    exact ⟨hpb, hnc⟩
  have hcard := Finset.card_erase_of_mem hmem
  have hpos : 0 < (boundsFinset b \ keyFinset u).card := Finset.card_pos.mpr ⟨p, hmem⟩
  omega

/-- The flood-fill loop always produces a result when given fuel at least five
steps per unwritten in-bounds cell plus the stack length, provided every stack
entry is in bounds. -/
theorem flood_fill_loop_isSome (tiles : Tiles) (allowed : Option TileDefinitionHandle)
    (bounds : Option TileRect) (trans : OrthoTransformation)
    (getAt : Vec2 → Option TileDefinitionHandle) (seed : Vec2) :
    ∀ (fuel : Nat) (stack : List Vec2) (u : TransTilesUpdate),
      (∀ q ∈ stack, opt_rect_contains bounds q = true) →
      5 * (boundsFinset bounds \ keyFinset u).card + stack.length ≤ fuel →
      (flood_fill_loop tiles allowed bounds trans getAt seed fuel stack u).isSome = true := by
  intro fuel
  induction fuel with
  | zero =>
    intro stack u hstk hm
    have hstack : stack = [] := by
      cases stack with
      | nil => rfl
      | cons a l =>
        simp only [List.length_cons] at hm
        omega
    subst hstack
    simp [flood_fill_loop]
  | succ fuel ih =>
    intro stack u hstk hm
    cases stack with
    | nil => simp [flood_fill_loop]
    | cons p rest =>
      simp only [flood_fill_loop]
      by_cases hc : tiles_get_at tiles p = allowed ∧ ¬gmContains u p = true
      · rw [if_pos hc]
        apply ih
        · intro q hq
          rcases List.mem_append.mp hq with hq | hq
          · exact (List.mem_filter.mp hq).2
          · exact hstk q (List.mem_cons_of_mem _ hq)
        · have hdec := flood_measure_dec bounds u p
            ((getAt (p - seed)).map fun h => (trans, h))
            (hstk p (List.mem_cons_self _ _)) hc.2
          have hlen : ((neighborsOf p).filter fun q => opt_rect_contains bounds q).length ≤ 4 :=
            List.length_filter_le _ _
          simp only [List.length_append, List.length_cons] at hm ⊢
          omega
      · rw [if_neg hc]
        apply ih
        · intro q hq
          exact hstk q (List.mem_cons_of_mem _ hq)
        · simp only [List.length_cons] at hm
          omega

/-- C9: `flood_fill` terminates on every input — the work-stack loop, given the
fuel `flood_fill` allots, always reaches the empty stack and yields a result. -/
theorem flood_fill_terminates (u : TransTilesUpdate) (tiles : Tiles) (start_point : Vec2)
    (trans : OrthoTransformation) (getAt : Vec2 → Option TileDefinitionHandle) :
    (flood_fill u tiles start_point trans getAt).isSome = true := by
  unfold flood_fill
  apply flood_fill_loop_isSome
  · intro q hq
    rw [List.mem_singleton] at hq
    subst hq
    exact opt_rect_push_contains_self _ _
  · have h1 : (boundsFinset (opt_rect_push (tiles_bounding_rect tiles) start_point)
        \ keyFinset u).card
        ≤ (opt_rect_positions (opt_rect_push (tiles_bounding_rect tiles) start_point)).length := by
      calc (boundsFinset (opt_rect_push (tiles_bounding_rect tiles) start_point)
            \ keyFinset u).card
          ≤ (boundsFinset (opt_rect_push (tiles_bounding_rect tiles) start_point)).card :=
            Finset.card_le_card (Finset.sdiff_subset)
        _ ≤ _ := List.toFinset_card_le _
    simp only [flood_fill_fuel, List.length_singleton]
    omega

/-- The flood-fill loop preserves `FloodInv` and, with sufficient fuel, reaches
the empty stack with the invariant intact. -/
theorem flood_fill_loop_inv (tiles : Tiles) (allowed : Option TileDefinitionHandle)
    (bounds : Option TileRect) (trans : OrthoTransformation)
    (getAt : Vec2 → Option TileDefinitionHandle) (seed : Vec2)
    (hallowed : allowed = tiles_get_at tiles seed) :
    ∀ (fuel : Nat) (stack : List Vec2) (u : TransTilesUpdate),
      FloodInv tiles allowed bounds trans getAt seed stack u →
      5 * (boundsFinset bounds \ keyFinset u).card + stack.length ≤ fuel →
      ∃ d, flood_fill_loop tiles allowed bounds trans getAt seed fuel stack u = some d
        ∧ FloodInv tiles allowed bounds trans getAt seed [] d := by
  intro fuel
  induction fuel with
  | zero =>
    intro stack u hinv hm
    have hstack : stack = [] := by
      cases stack with
      | nil => rfl
      | cons a l =>
        simp only [List.length_cons] at hm
        omega
    subst hstack
    exact ⟨u, by simp [flood_fill_loop], hinv⟩
  | succ fuel ih =>
    intro stack u hinv hm
    cases stack with
    | nil => exact ⟨u, by simp [flood_fill_loop], hinv⟩
    | cons p rest =>
      obtain ⟨inv1, inv2, inv3, inv4, inv5, inv6, inv7⟩ := hinv
      simp only [flood_fill_loop]
      by_cases hc : tiles_get_at tiles p = allowed ∧ ¬gmContains u p = true
      · rw [if_pos hc]
        apply ih
        · refine ⟨?_, ?_, ?_, ?_, ?_, ?_, ?_⟩
          · intro q hq
            rcases List.mem_append.mp hq with hq | hq
            · exact (List.mem_filter.mp hq).2
            · exact inv1 q (List.mem_cons_of_mem _ hq)
          · intro q hq
            rcases List.mem_append.mp hq with hq | hq
            · exact Or.inr ⟨p, (gmContains_insert _ _ _ _).mpr (Or.inl rfl),
                (List.mem_filter.mp hq).1⟩
            · rcases inv2 q (List.mem_cons_of_mem _ hq) with hs | ⟨t, hct, hn⟩
              · exact Or.inl hs
              · exact Or.inr ⟨t, (gmContains_insert _ _ _ _).mpr (Or.inr hct), hn⟩
          · intro q hq
            rcases (gmContains_insert _ _ _ _).mp hq with he | hq'
            · subst he
              rcases inv2 p (List.mem_cons_self _ _) with hs | ⟨t, hct, hn⟩
              · subst hs
                exact Reach.seed
              · exact Reach.step (inv3 t hct) hn (inv1 p (List.mem_cons_self _ _)) hc.1
            · exact inv3 q hq'
          · intro q h hq
            rw [gmLookup_insert] at hq
            by_cases he : p = q
            · subst he
              rw [if_pos rfl] at hq
              exact (Option.some.inj hq).symm
            · rw [if_neg he] at hq
              exact inv4 q h hq
          · rw [gmInsert, gmKeys, List.map_cons]
            refine List.nodup_cons.mpr ⟨?_, inv5⟩
            intro hmem
            exact hc.2 ((gmContains_iff_mem u p).mpr hmem)
          · intro q hq p' hp' hb' hid
            rcases (gmContains_insert _ _ _ _).mp hq with he | hq'
            · subst he
              exact Or.inr (List.mem_append_left _ (List.mem_filter.mpr ⟨hp', hb'⟩))
            · rcases inv6 q hq' p' hp' hb' hid with hcp | hstk
              · exact Or.inl ((gmContains_insert _ _ _ _).mpr (Or.inr hcp))
              · rcases List.mem_cons.mp hstk with he | hr
                · subst he
                  exact Or.inl ((gmContains_insert _ _ _ _).mpr (Or.inl rfl))
                · exact Or.inr (List.mem_append_right _ hr)
          · rcases inv7 with hcs | hstk
            · exact Or.inl ((gmContains_insert _ _ _ _).mpr (Or.inr hcs))
            · rcases List.mem_cons.mp hstk with he | hr
              · subst he
                exact Or.inl ((gmContains_insert _ _ _ _).mpr (Or.inl rfl))
              · exact Or.inr (List.mem_append_right _ hr)
        · have hdec := flood_measure_dec bounds u p
            ((getAt (p - seed)).map fun h => (trans, h))
            (inv1 p (List.mem_cons_self _ _)) hc.2
          have hlen : ((neighborsOf p).filter fun q => opt_rect_contains bounds q).length ≤ 4 :=
            List.length_filter_le _ _
          simp only [List.length_append, List.length_cons] at hm ⊢
          omega
      · rw [if_neg hc]
        apply ih
        · refine ⟨?_, ?_, inv3, inv4, inv5, ?_, ?_⟩
          · intro q hq
            exact inv1 q (List.mem_cons_of_mem _ hq)
          · intro q hq
            exact inv2 q (List.mem_cons_of_mem _ hq)
          · intro q hq p' hp' hb' hid
            rcases inv6 q hq p' hp' hb' hid with hcp | hstk
            · exact Or.inl hcp
            · rcases List.mem_cons.mp hstk with he | hr
              · subst he
                by_cases hcp' : gmContains u p' = true
                · exact Or.inl hcp'
                · exact absurd ⟨hid, hcp'⟩ hc
              · exact Or.inr hr
          · rcases inv7 with hcs | hstk
            · exact Or.inl hcs
            · rcases List.mem_cons.mp hstk with he | hr
              · subst he
                by_cases hcs' : gmContains u seed = true
                · exact Or.inl hcs'
                · exact absurd ⟨hallowed.symm, hcs'⟩ hc
              · exact Or.inr hr
        · simp only [List.length_cons] at hm
          omega

/-- Every reachable cell is contained in a diff that holds the seed and is
closed under eligible in-bounds adjacency. -/
theorem reach_mem_of_closed (tiles : Tiles) (allowed : Option TileDefinitionHandle)
    (bounds : Option TileRect) (seed : Vec2) (d : TransTilesUpdate)
    (hseed : gmContains d seed = true)
    (hclosed : ∀ q, gmContains d q = true → ∀ p ∈ neighborsOf q,
      opt_rect_contains bounds p = true → tiles_get_at tiles p = allowed →
      gmContains d p = true) :
    ∀ p, Reach tiles allowed bounds seed p → gmContains d p = true := by
  intro p hr
  induction hr with
  | seed => exact hseed
  | step hq hn hb hid ih => exact hclosed _ ih _ hn hb hid

open scoped Classical in
/-- C4: on an initially empty update, `flood_fill` writes exactly the cells
4-connected-reachable from the seed through in-bounds cells whose tile identity
equals the seed cell's identity — within the tiles' bounding rectangle extended
to include the seed — each exactly once (no duplicate keys), with value
`brush.get_at(position - seed)` paired with the brush transformation (a `none`
entry when `get_at` returns `None`); unreachable cells are not written. -/
theorem flood_fill_spec (tiles : Tiles) (seed : Vec2) (trans : OrthoTransformation)
    (getAt : Vec2 → Option TileDefinitionHandle) :
    ∃ d, flood_fill [] tiles seed trans getAt = some d
      ∧ (gmKeys d).Nodup
      ∧ ∀ p, gmLookup d p =
          if Reach tiles (tiles_get_at tiles seed)
              (opt_rect_push (tiles_bounding_rect tiles) seed) seed p
          then some ((getAt (p - seed)).map fun h => (trans, h))
          else none := by
  unfold flood_fill
  have hinit : FloodInv tiles (tiles_get_at tiles seed)
      (opt_rect_push (tiles_bounding_rect tiles) seed) trans getAt seed [seed] [] := by
    refine ⟨?_, ?_, ?_, ?_, ?_, ?_, ?_⟩
    · intro q hq
      rw [List.mem_singleton] at hq
      subst hq
      exact opt_rect_push_contains_self _ _
    · intro q hq
      rw [List.mem_singleton] at hq
      exact Or.inl hq
    · intro q hq
      exact absurd hq (by simp [gmContains, gmLookup])
    · intro q h hq
      exact absurd hq (by simp [gmLookup])
    · simp [gmKeys]
    · intro q hq
      exact absurd hq (by simp [gmContains, gmLookup])
    · exact Or.inr (List.mem_singleton.mpr rfl)
  have hmeas : 5 * (boundsFinset (opt_rect_push (tiles_bounding_rect tiles) seed)
      \ keyFinset ([] : TransTilesUpdate)).card + ([seed] : List Vec2).length
      ≤ flood_fill_fuel (opt_rect_push (tiles_bounding_rect tiles) seed) := by
    have h1 : (boundsFinset (opt_rect_push (tiles_bounding_rect tiles) seed)
        \ keyFinset ([] : TransTilesUpdate)).card
        ≤ (opt_rect_positions (opt_rect_push (tiles_bounding_rect tiles) seed)).length := by
      calc (boundsFinset (opt_rect_push (tiles_bounding_rect tiles) seed)
            \ keyFinset ([] : TransTilesUpdate)).card
          ≤ (boundsFinset (opt_rect_push (tiles_bounding_rect tiles) seed)).card :=
            Finset.card_le_card (Finset.sdiff_subset)
        _ ≤ _ := List.toFinset_card_le _
    simp only [flood_fill_fuel, List.length_singleton]
    omega
  obtain ⟨d, hd, inv⟩ := flood_fill_loop_inv tiles (tiles_get_at tiles seed)
    (opt_rect_push (tiles_bounding_rect tiles) seed) trans getAt seed rfl
    (flood_fill_fuel (opt_rect_push (tiles_bounding_rect tiles) seed)) [seed] [] hinit hmeas
  obtain ⟨_, _, inv3, inv4, inv5, inv6, inv7⟩ := inv
  have hseed : gmContains d seed = true := by
    rcases inv7 with h | h
    · exact h
    · exact absurd h (List.not_mem_nil _)
  have hclosed : ∀ q, gmContains d q = true → ∀ p ∈ neighborsOf q,
      opt_rect_contains (opt_rect_push (tiles_bounding_rect tiles) seed) p = true →
      tiles_get_at tiles p = tiles_get_at tiles seed →
      gmContains d p = true := by
    intro q hq p hp hb hid
    rcases inv6 q hq p hp hb hid with h | h
    · exact h
    · exact absurd h (List.not_mem_nil _)
  refine ⟨d, hd, inv5, ?_⟩
  intro p
  by_cases hr : Reach tiles (tiles_get_at tiles seed)
      (opt_rect_push (tiles_bounding_rect tiles) seed) seed p
  · rw [if_pos hr]
    have hmem : gmContains d p = true :=
      reach_mem_of_closed tiles _ _ seed d hseed hclosed p hr
    rcases hl : gmLookup d p with _ | v
    · rw [gmContains, hl] at hmem
      simp at hmem
    · rw [inv4 p v hl]
  · rw [if_neg hr]
    rcases hl : gmLookup d p with _ | v
    · rfl
    · have : gmContains d p = true := by
        rw [gmContains, hl]
        rfl
      exact absurd (inv3 p this) hr
